import Mathlib

/-!
# Cookbook download (`cookbook_download.go`)

A shallow embedding of `DownloadCookbookAt`, `downloadCookbookItems` and
`downloadCookbookFile`.  The Go code is effectful; here every function takes the current
`World` (a path-keyed filesystem together with the log of the effects performed so far) and
returns the Go `error` (`none` for `nil`) together with the new `World`.

The collaborators the code calls but does not define are modelled as follows.

* `path.Join` and `path.Clean` (Go standard library) are transcribed from the library
  source, character by character (`GoPath`).  Go strings are byte strings; the two bytes
  the functions look at, `/` and `.`, are single characters, so on text the characters
  behave as the bytes do.
* `os.MkdirAll`, `os.Create` and `io.Copy` are given a model over a filesystem that maps
  cleaned path strings to nodes (no symbolic links, a fixed working directory `.`), with
  per-path denials standing for permissions and quotas (`Env`).
* The API client (`GetVersion`, `NewRequest`, `Do`) is a set of fields of `Env`.  The answer
  of `Do` may depend on the whole history, so the server need not be deterministic.
-/

namespace GoPath

/-- The backward scan of the `..` case of `path.Clean`:
`for out.w > dotdot && out.index(out.w) != '/' { out.w-- }`.
The buffer is kept newest character first, so its length is `out.w`, and `dropped` is the
byte at index `out.w`, the one most recently cut off. -/
def backtrack (dotdot : Nat) (dropped : Char) : List Char → List Char
  | [] => []
  | c :: t =>
    if (c :: t).length > dotdot ∧ dropped ≠ '/' then backtrack dotdot c t else c :: t

/-- The `out.w--` that opens the backward scan, followed by the scan. -/
def unwind (dotdot : Nat) : List Char → List Char
  | [] => []
  | d :: o => backtrack dotdot d o

/-- The main loop `for r < n { switch { ... } }` of `path.Clean`.  `path` is the unread
input `path[r:]`, `out` the written buffer (newest character first) and `dotdot` the index
where `..` must stop.  Every iteration consumes input, so `fuel = len(path)` is enough. -/
def cleanLoop (rooted : Bool) : Nat → List Char → List Char → Nat → List Char
  | 0, _, out, _ => out
  | _ + 1, [], out, _ => out
  | fuel + 1, c :: t, out, dotdot =>
    if c = '/' then
      -- empty path element
      cleanLoop rooted fuel t out dotdot
    else if c = '.' ∧ (t = [] ∨ t.head? = some '/') then
      -- . element
      cleanLoop rooted fuel t out dotdot
    else if c = '.' ∧ t.head? = some '.' ∧ (t.tail = [] ∨ t.tail.head? = some '/') then
      -- .. element: remove to last /
      if out.length > dotdot then
        -- can backtrack
        cleanLoop rooted fuel t.tail (unwind dotdot out) dotdot
      else if !rooted then
        -- cannot backtrack, but not rooted, so append .. element
        let out1 := if out.length > 0 then '/' :: out else out
        let out2 := '.' :: '.' :: out1
        cleanLoop rooted fuel t.tail out2 out2.length
      else cleanLoop rooted fuel t.tail out dotdot
    else
      -- real path element: add slash if needed, then copy the element
      let out1 :=
        if (rooted ∧ out.length ≠ 1) ∨ (!rooted ∧ out.length ≠ 0) then '/' :: out else out
      cleanLoop rooted fuel ((c :: t).dropWhile (· ≠ '/'))
        (((c :: t).takeWhile (· ≠ '/')).reverse ++ out1) dotdot

/-- Go's `path.Clean` on the characters of the path. -/
def cleanChars (path : List Char) : List Char :=
  if path = [] then ['.']
  else
    let out :=
      if path.head? = some '/' then cleanLoop true path.length path.tail ['/'] 1
      else cleanLoop false path.length path [] 0
    -- Turn empty string into "."
    if out.length = 0 then ['.'] else out.reverse

/-- Go's `path.Clean`. -/
def Clean (path : String) : String := ⟨cleanChars path.data⟩

/-- The buffer `path.Join` builds before cleaning: every element from the first non-empty
one on, separated by slashes. -/
def joinBuf : List Char → List String → List Char
  | buf, [] => buf
  | buf, e :: rest =>
    if buf.length > 0 ∨ e ≠ "" then
      joinBuf ((if buf.length > 0 then buf ++ ['/'] else buf) ++ e.data) rest
    else joinBuf buf rest

/-- Go's `path.Join`. -/
def Join (elems : List String) : String :=
  if (elems.map String.length).sum = 0 then "" else ⟨cleanChars (joinBuf [] elems)⟩

end GoPath

namespace Chef

/-- Go `error` values, identified by their message. -/
abbrev Error := String

/-- Modelled from the spec: the `CookbookItem` struct, declared outside the two source files
(spec section 3: name, path, URL, checksum, specificity). -/
structure CookbookItem where
  Url : String
  Path : String
  Name : String
  Checksum : String
  Specificity : String
  deriving DecidableEq

/-- Modelled from the spec: the `Cookbook` manifest struct, declared outside the two source
files (spec section 3: the three name fields and the nine categories). -/
structure Cookbook where
  CookbookName : String
  Name : String
  Version : String
  RootFiles : List CookbookItem
  Files : List CookbookItem
  Templates : List CookbookItem
  Attributes : List CookbookItem
  Recipes : List CookbookItem
  Definitions : List CookbookItem
  Libraries : List CookbookItem
  Providers : List CookbookItem
  Resources : List CookbookItem
  deriving DecidableEq

/-- A filesystem node. -/
inductive Node where
  | dir
  | file (content : String)
  deriving DecidableEq

/-- The effects the code performs, in the order of the calls. -/
inductive Event where
  | printed (msg : String)
  | getVersion (name version : String)
  | newRequest (method url : String)
  | doRequest (url : String)
  | closeBody (url : String)
  | mkdirAll (path : String) (perm : Nat)
  | create (path : String)
  | copy (path : String) (data : String)
  deriving DecidableEq

/-- The state of the outside world: the filesystem and the log of effects, newest first. -/
structure World where
  fs : String → Option Node
  trace : List Event

/-- Append an effect to the log. -/
def World.log (w : World) (e : Event) : World := { w with trace := e :: w.trace }

/-- Replace the node at one path. -/
def World.put (w : World) (p : String) (n : Node) : World :=
  { w with fs := fun q => if q = p then some n else w.fs q }

/-- The `*http.Request` built by the client. -/
structure Request where
  method : String
  url : String
  deriving DecidableEq

/-- A response body: the bytes the stream yields and the error, if any, that ends it. -/
structure Body where
  data : String
  readErr : Option Error
  deriving DecidableEq

/-- What `c.client.Do` returns: `(nil, err)`, `(response, err)` or `(response, nil)`. -/
inductive DoResult where
  | failed (err : Error)
  | rejected (body : Body) (err : Error)
  | ok (body : Body)
  deriving DecidableEq

/-- The collaborators of the download code. -/
structure Env where
  /-- The call `c.GetVersion(name, version)`. -/
  getVersion : String → String → Except Error Cookbook
  /-- The call `c.client.NewRequest(method, url, nil)`. -/
  newRequest : String → String → Except Error Request
  /-- The call `c.client.Do(request, nil)`; the answer may depend on all that happened. -/
  doRequest : World → Request → DoResult
  /-- Directories the operating system refuses to create. -/
  mkdirDenied : String → Option Error
  /-- Files the operating system refuses to create or truncate. -/
  createDenied : String → Option Error
  /-- Writes that fail after the given number of characters. -/
  writeFault : String → String → Option (Nat × Error)

/-- The cut points of a path: `pre` is what was read so far; one entry for every slash met
and one for the whole path. -/
def slashCuts (pre : List Char) : List Char → List (List Char)
  | [] => [pre]
  | c :: t => if c = '/' then pre :: slashCuts (pre ++ [c]) t else slashCuts (pre ++ [c]) t

/-- The directories `os.MkdirAll path` needs, outermost first: the root or the working
directory, every proper ancestor, and the path itself. -/
def ancestorChars (p : List Char) : List (List Char) :=
  if p = [] then []
  else if p = ['/'] ∨ p = ['.'] then [p]
  else if p.head? = some '/' then ['/'] :: slashCuts ['/'] p.tail
  else ['.'] :: slashCuts [] p

/-- The directories `os.MkdirAll path` needs, as strings. -/
def ancestors (p : String) : List String := (ancestorChars p.data).map String.mk

/-- The directory holding `p`: what precedes the last slash, `/` for a child of the root
and `.` for a path without a slash. -/
def parentDir (p : String) : String :=
  match p.data.reverse.dropWhile (· ≠ '/') with
  | [] => "."
  | _ :: r => if r = [] then "/" else ⟨r.reverse⟩

/-- Create the directories of a chain in turn: one that is a file stops the chain, one that
is a directory is accepted, a missing one is created unless the system denies it. -/
def mkdirChain (env : Env) : World → List String → Option Error × World
  | w, [] => (none, w)
  | w, d :: ds =>
    match w.fs d with
    | some (Node.file _) => (some ("mkdir " ++ d ++ ": not a directory"), w)
    | some Node.dir => mkdirChain env w ds
    | none =>
      match env.mkdirDenied d with
      | some err => (some err, w)
      | none => mkdirChain env (w.put d Node.dir) ds

/-- Model of `os.MkdirAll(path, perm)` for a cleaned `path`, as `path.Join` returns it. -/
def osMkdirAll (env : Env) (w : World) (path : String) (perm : Nat) : Option Error × World :=
  let w := w.log (Event.mkdirAll path perm)
  if path = "" then (some "mkdir : no such file or directory", w)
  else mkdirChain env w (ancestors path)

/-- Model of `os.Create(name)`: fails on a directory, below a file, in a missing directory,
or when the system denies it; otherwise the file exists afterwards and is empty. -/
def osCreate (env : Env) (w : World) (name : String) : Option Error × World :=
  let w := w.log (Event.create name)
  match w.fs name with
  | some Node.dir => (some ("open " ++ name ++ ": is a directory"), w)
  | _ =>
    match w.fs (parentDir name) with
    | some (Node.file _) => (some ("open " ++ name ++ ": not a directory"), w)
    | none => (some ("open " ++ name ++ ": no such file or directory"), w)
    | some Node.dir =>
      match env.createDenied name with
      | some err => (some err, w)
      | none => (none, w.put name (Node.file ""))

/-- Model of `io.Copy(f, body)` for the file opened at `name`: the bytes received are
written; a write fault keeps only the bytes written before it, a read error keeps the
bytes read before it. -/
def ioCopy (env : Env) (w : World) (name : String) (body : Body) : Option Error × World :=
  let w := w.log (Event.copy name body.data)
  match env.writeFault name body.data with
  | some (n, err) => (some err, w.put name (Node.file ⟨body.data.data.take n⟩))
  | none => (body.readErr, w.put name (Node.file body.data))

/-- The function `downloadCookbookFile` downloads a single cookbook file to disk. -/
def downloadCookbookFile (env : Env) (w : World) (url file : String) : Option Error × World :=
  let w := w.log (Event.newRequest "GET" url)
  match env.newRequest "GET" url with
  | Except.error err => (some err, w)
  | Except.ok request =>
    let result := env.doRequest w request
    let w := w.log (Event.doRequest request.url)
    match result with
    | DoResult.failed err =>
      -- response == nil: nothing is deferred
      (some err, w)
    | DoResult.rejected _ err =>
      -- response != nil: the deferred Close runs on return
      (some err, w.log (Event.closeBody request.url))
    | DoResult.ok body =>
      match osCreate env w file with
      | (some err, w) => (some err, w.log (Event.closeBody request.url))
      | (none, w) =>
        match ioCopy env w file body with
        | (some err, w) => (some err, w.log (Event.closeBody request.url))
        | (none, w) => (none, w.log (Event.closeBody request.url))

/-- The loop `for _, item := range items` of `downloadCookbookItems`. -/
def downloadItemsLoop (env : Env) (localPath : String) :
    World → List CookbookItem → Option Error × World
  | w, [] => (none, w)
  | w, item :: rest =>
    let itemPath := GoPath.Join [localPath, item.Name]
    match downloadCookbookFile env w item.Url itemPath with
    | (some err, w) => (some err, w)
    | (none, w) => downloadItemsLoop env localPath w rest

/-- The function `downloadCookbookItems` downloads all the provided cookbook items into the
provided local path, it also ensures that the provided directory exists by creating it. -/
def downloadCookbookItems (env : Env) (w : World) (items : List CookbookItem)
    (itemType localPath : String) : Option Error × World :=
  if items.length = 0 then (none, w)
  else
    let w := w.log (Event.printed ("Downloading " ++ itemType ++ "\n"))
    match osMkdirAll env w localPath 0o755 with
    | (some err, w) => (some err, w)
    | (none, w) => downloadItemsLoop env localPath w items

/-- The loop `for _, err := range downloadErrs` of `DownloadCookbookAt`: the first non-nil
error of the slice. -/
def firstError : List (Option Error) → Option Error
  | [] => none
  | some err :: _ => some err
  | none :: rest => firstError rest

/-- The function `DownloadCookbookAt` downloads a cookbook to the specified local directory
on disk. -/
def DownloadCookbookAt (env : Env) (w : World) (name version localDir : String) :
    Option Error × World :=
  let version := if version = "" ∨ version = "latest" then "_latest" else version
  let w := w.log (Event.getVersion name version)
  match env.getVersion name version with
  | Except.error err => (some err, w)
  | Except.ok cookbook =>
    let w := w.log (Event.printed
      ("Downloading " ++ cookbook.CookbookName ++ " cookbook version " ++ cookbook.Version ++ "\n"))
    let cookbookPath := GoPath.Join [localDir, cookbook.Name]
    -- the elements of the slice literal are evaluated in order, all of them
    let r1 := downloadCookbookItems env w cookbook.RootFiles "root_files" cookbookPath
    let r2 := downloadCookbookItems env r1.2 cookbook.Files "files"
      (GoPath.Join [cookbookPath, "files"])
    let r3 := downloadCookbookItems env r2.2 cookbook.Templates "templates"
      (GoPath.Join [cookbookPath, "templates"])
    let r4 := downloadCookbookItems env r3.2 cookbook.Attributes "attributes"
      (GoPath.Join [cookbookPath, "attributes"])
    let r5 := downloadCookbookItems env r4.2 cookbook.Recipes "recipes"
      (GoPath.Join [cookbookPath, "recipes"])
    let r6 := downloadCookbookItems env r5.2 cookbook.Definitions "definitions"
      (GoPath.Join [cookbookPath, "definitions"])
    let r7 := downloadCookbookItems env r6.2 cookbook.Libraries "libraries"
      (GoPath.Join [cookbookPath, "libraries"])
    let r8 := downloadCookbookItems env r7.2 cookbook.Providers "providers"
      (GoPath.Join [cookbookPath, "providers"])
    let r9 := downloadCookbookItems env r8.2 cookbook.Resources "resources"
      (GoPath.Join [cookbookPath, "resources"])
    let downloadErrs := [r1.1, r2.1, r3.1, r4.1, r5.1, r6.1, r7.1, r8.1, r9.1]
    match firstError downloadErrs with
    | some err => (some err, r9.2)
    | none => (none, r9.2.log (Event.printed ("Cookbook downloaded to " ++ cookbookPath ++ "\n")))

/-- The nine category calls of `DownloadCookbookAt`, in the order of the slice literal:
items, label and destination directory. -/
def categoryCalls (cookbook : Cookbook) (cookbookPath : String) :
    List (List CookbookItem × String × String) :=
  [(cookbook.RootFiles, "root_files", cookbookPath),
   (cookbook.Files, "files", GoPath.Join [cookbookPath, "files"]),
   (cookbook.Templates, "templates", GoPath.Join [cookbookPath, "templates"]),
   (cookbook.Attributes, "attributes", GoPath.Join [cookbookPath, "attributes"]),
   (cookbook.Recipes, "recipes", GoPath.Join [cookbookPath, "recipes"]),
   (cookbook.Definitions, "definitions", GoPath.Join [cookbookPath, "definitions"]),
   (cookbook.Libraries, "libraries", GoPath.Join [cookbookPath, "libraries"]),
   (cookbook.Providers, "providers", GoPath.Join [cookbookPath, "providers"]),
   (cookbook.Resources, "resources", GoPath.Join [cookbookPath, "resources"])]

/-- Run category calls one after the other, each from the world the previous one left,
whatever the previous one returned; the errors are collected in order. -/
def runCalls (env : Env) : World → List (List CookbookItem × String × String) →
    List (Option Error) × World
  | w, [] => ([], w)
  | w, call :: rest =>
    let r := downloadCookbookItems env w call.1 call.2.1 call.2.2
    let rr := runCalls env r.2 rest
    (r.1 :: rr.1, rr.2)

end Chef

/-! ## Auxiliary definitions for the proofs about `path.Clean` -/

namespace GoPath

/-- A path as its slash-separated elements: the inverse of splitting at every slash. -/
def unsplit : List (List Char) → List Char
  | [] => []
  | [t] => t
  | t :: t2 :: ts => t ++ '/' :: unsplit (t2 :: ts)

/-- The buffer after appending one element to it, with the slash `path.Clean` puts in front
unless the buffer is still the bare root or empty (buffers are newest character first). -/
def pushTok (rooted : Bool) (out : List Char) (t : List Char) : List Char :=
  t.reverse ++ (if out.length = (if rooted then 1 else 0) then out else '/' :: out)

/-- The buffer `path.Clean` starts from. -/
def baseBuf (rooted : Bool) : List Char := if rooted then ['/'] else []

/-- The buffer holding `ups` leading `..` elements followed by the elements `comps`. -/
def render (rooted : Bool) (ups : Nat) (comps : List (List Char)) : List Char :=
  (List.replicate ups ['.', '.'] ++ comps).foldl (pushTok rooted) (baseBuf rooted)

/-- A real path element: not empty, without a slash, and neither `.` nor `..`. -/
def Normal (t : List Char) : Prop := t ≠ [] ∧ '/' ∉ t ∧ t ≠ ['.'] ∧ t ≠ ['.', '.']

instance (t : List Char) : Decidable (Normal t) := by unfold Normal; infer_instance

/-- What one path element does to the cleaned path, as the documentation of `path.Clean`
states it: empty elements and `.` vanish, `..` removes the element before it, is dropped at
the root and is kept at the start of a relative path, anything else is appended. -/
def stepTok (rooted : Bool) (st : Nat × List (List Char)) (t : List Char) :
    Nat × List (List Char) :=
  if t = [] ∨ t = ['.'] then st
  else if t = ['.', '.'] then
    if st.2 ≠ [] then (st.1, st.2.dropLast)
    else if rooted then st
    else (st.1 + 1, [])
  else (st.1, st.2 ++ [t])

/-- The buffer, the `dotdot` mark and the element-wise state describe the same cleaned
path. -/
def Inv (rooted : Bool) (out : List Char) (dotdot : Nat) (st : Nat × List (List Char)) : Prop :=
  out = render rooted st.1 st.2 ∧ dotdot = (render rooted st.1 []).length ∧
    (rooted = true → st.1 = 0) ∧ ∀ c ∈ st.2, Normal c

/-- The text of a buffer: `.` for the empty one, as at the end of `path.Clean`. -/
def finish (out : List Char) : List Char := if out.length = 0 then ['.'] else out.reverse

/-- An element-wise state `path.Clean` can reach: no leading `..` under the root, and only
real elements after them. -/
def StateOk (rooted : Bool) (st : Nat × List (List Char)) : Prop :=
  (rooted = true → st.1 = 0) ∧ ∀ c ∈ st.2, Normal c

/-- The outputs of `path.Clean`: the text of a reachable element-wise state. -/
def Cleaned (d : List Char) : Prop :=
  ∃ rooted ups comps, StateOk rooted (ups, comps) ∧ d = finish (render rooted ups comps)

/-- The elements a cleaned path splits into. -/
def canonToks (rooted : Bool) (ups : Nat) (comps : List (List Char)) : List (List Char) :=
  if rooted then [] :: (if comps = [] then [[]] else comps)
  else List.replicate ups ['.', '.'] ++ comps

/-- A cleaned path that ends in a real element: what `path.Join` returns when its last
argument is one. -/
def Proper (d : String) : Prop :=
  ∃ rooted ups comps c, StateOk rooted (ups, comps) ∧ Normal c ∧
    d.data = (render rooted ups (comps ++ [c])).reverse

end GoPath

/-! ## Auxiliary definitions for the proofs about the download, and example data -/

namespace Chef

/-- The versions `GetVersion` was asked for, newest first, with the cookbook names. -/
def askedVersions (trace : List Event) : List (String × String) :=
  trace.filterMap fun e =>
    match e with
    | Event.getVersion name version => some (name, version)
    | _ => none

/-- The directories `os.MkdirAll` was called on, newest first. -/
def mkdirTargets (trace : List Event) : List String :=
  trace.filterMap fun e =>
    match e with
    | Event.mkdirAll path _ => some path
    | _ => none

/-- The URLs `Do` was called on, newest first. -/
def requestedUrls (trace : List Event) : List String :=
  trace.filterMap fun e =>
    match e with
    | Event.doRequest url => some url
    | _ => none

/-- The world in which the first category call of `DownloadCookbookAt` starts, once the
manifest `cookbook` has been fetched. -/
def startWorld (w : World) (name version : String) (cookbook : Cookbook) : World :=
  (w.log (Event.getVersion name
    (if version = "" ∨ version = "latest" then "_latest" else version))).log
    (Event.printed ("Downloading " ++ cookbook.CookbookName ++ " cookbook version " ++
      cookbook.Version ++ "\n"))

/-- The nine category downloads of a call of `DownloadCookbookAt` that fetched `cookbook`:
the errors they returned, in order, and the world the last one left. -/
def categoryRuns (env : Env) (w : World) (name version localDir : String)
    (cookbook : Cookbook) : List (Option Error) × World :=
  runCalls env (startWorld w name version cookbook)
    (categoryCalls cookbook (GoPath.Join [localDir, cookbook.Name]))

/-- The destinations of the calls that have items, newest first. -/
def attempted (calls : List (List CookbookItem × String × String)) : List String :=
  ((calls.filter fun call => decide (call.1 ≠ [])).map fun call => call.2.2).reverse

/-- The conditions under which a transfer succeeds in world `w`. -/
def Transfers (env : Env) (w : World) (url file : String) (request : Request) (body : Body) :
    Prop :=
  env.newRequest "GET" url = Except.ok request ∧
  env.doRequest (w.log (Event.newRequest "GET" url)) request = DoResult.ok body ∧
  body.readErr = none ∧ env.writeFault file body.data = none ∧
  w.fs file ≠ some Node.dir ∧ w.fs (parentDir file) = some Node.dir ∧
  env.createDenied file = none

/-- The variable `itemPath` of `downloadCookbookItems`: where an item is written. -/
def itemPath (localPath : String) (item : CookbookItem) : String :=
  GoPath.Join [localPath, item.Name]

/-- The files a category call writes. -/
def callPaths (call : List CookbookItem × String × String) : List String :=
  call.1.map (itemPath call.2.2)

/-- The files a sequence of category calls writes, in order. -/
def allPaths : List (List CookbookItem × String × String) → List String
  | [] => []
  | call :: rest => callPaths call ++ allPaths rest

/-- Directories stay directories and files stay files (their content may change). -/
def Persists (fs fs' : String → Option Node) : Prop :=
  ∀ p, (fs p = some Node.dir → fs' p = some Node.dir) ∧
    (∀ x, fs p = some (Node.file x) → ∃ y, fs' p = some (Node.file y))

/-- The path `p` is the directory `root` or lies below it. -/
def Inside (root p : String) : Prop := p = root ∨ (root.data ++ ['/']) <+: p.data

instance (root p : String) : Decidable (Inside root p) := by unfold Inside; infer_instance

/-- The second run `b` follows the first run `a`: every path holds either what the first
run left there in the end (`final`) or what the first run holds there at this point. -/
def Follows (final : String → Option Node) (a b : World) : Prop :=
  ∀ p, b.fs p = final p ∨ b.fs p = a.fs p

/-- Modelled from the spec: the invariant of a manifest (spec section 3),
`Name == CookbookName + "-" + Version`, which the struct declared outside the two source
files cannot carry; `DownloadCookbookAt` relies on it where it takes `cookbook.Name` for the
string `{NAME}-{VERSION}`. -/
def Cookbook.Invariant (cookbook : Cookbook) : Prop :=
  cookbook.Name = cookbook.CookbookName ++ "-" ++ cookbook.Version

instance (cookbook : Cookbook) : Decidable cookbook.Invariant := by
  unfold Cookbook.Invariant; infer_instance

/-- Every transfer of the loop over `items` returns no error, each in the world the
transfers before it left. -/
def ItemsSucceed (env : Env) (localPath : String) : World → List CookbookItem → Prop
  | _, [] => True
  | w, item :: rest =>
    (downloadCookbookFile env w item.Url (itemPath localPath item)).1 = none ∧
      ItemsSucceed env localPath
        (downloadCookbookFile env w item.Url (itemPath localPath item)).2 rest

/-- Decide `ItemsSucceed` by running the transfers. -/
def decItemsSucceed (env : Env) (localPath : String) :
    (w : World) → (items : List CookbookItem) → Decidable (ItemsSucceed env localPath w items)
  | _, [] => isTrue trivial
  | w, item :: rest =>
    match decItemsSucceed env localPath
      (downloadCookbookFile env w item.Url (itemPath localPath item)).2 rest with
    | isTrue h =>
      if h1 : (downloadCookbookFile env w item.Url (itemPath localPath item)).1 = none then
        isTrue ⟨h1, h⟩
      else isFalse fun h2 => h1 h2.1
    | isFalse h => isFalse fun h2 => h h2.2

instance (env : Env) (localPath : String) (w : World) (items : List CookbookItem) :
    Decidable (ItemsSucceed env localPath w items) := decItemsSucceed env localPath w items

/-- The directory creation and every transfer of one category call return no error: a call
without items performs neither; otherwise `os.MkdirAll` on the destination, called after
the category is announced, returns no error, and so does every transfer after it. -/
def CallSucceeds (env : Env) (w : World) (call : List CookbookItem × String × String) : Prop :=
  call.1 = [] ∨
    ((osMkdirAll env (w.log (Event.printed ("Downloading " ++ call.2.1 ++ "\n")))
        call.2.2 0o755).1 = none ∧
      ItemsSucceed env call.2.2
        (osMkdirAll env (w.log (Event.printed ("Downloading " ++ call.2.1 ++ "\n")))
          call.2.2 0o755).2 call.1)

instance (env : Env) (w : World) (call : List CookbookItem × String × String) :
    Decidable (CallSucceeds env w call) := by
  unfold CallSucceeds; infer_instance

/-- Every directory creation and every transfer of a sequence of category calls returns no
error, each call starting in the world the call before it left. -/
def CallsSucceed (env : Env) :
    World → List (List CookbookItem × String × String) → Prop
  | _, [] => True
  | w, call :: rest =>
    CallSucceeds env w call ∧
      CallsSucceed env (downloadCookbookItems env w call.1 call.2.1 call.2.2).2 rest

/-- Decide `CallsSucceed` by running the calls. -/
def decCallsSucceed (env : Env) :
    (w : World) → (calls : List (List CookbookItem × String × String)) →
      Decidable (CallsSucceed env w calls)
  | _, [] => isTrue trivial
  | w, call :: rest =>
    match decCallsSucceed env (downloadCookbookItems env w call.1 call.2.1 call.2.2).2 rest with
    | isTrue h =>
      if h1 : CallSucceeds env w call then isTrue ⟨h1, h⟩
      else isFalse fun h2 => h1 h2.1
    | isFalse h => isFalse fun h2 => h h2.2

instance (env : Env) (w : World) (calls : List (List CookbookItem × String × String)) :
    Decidable (CallsSucceed env w calls) := decCallsSucceed env w calls

/-- An item with the given name and URL. -/
def mkItem (name url : String) : CookbookItem :=
  { Url := url, Path := name, Name := name, Checksum := "", Specificity := "default" }

/-- A filesystem holding only the working directory. -/
def emptyDisk : World :=
  { fs := fun p => if p = "." then some Node.dir else none, trace := [] }

/-- A server for the C5 example: `u1` serves `one`; the body of `u2` breaks off after
`tw`. -/
def brokenBodyEnv : Env where
  getVersion := fun _ _ => Except.error "404"
  newRequest := fun method url => Except.ok { method := method, url := url }
  doRequest := fun _ request =>
    if request.url = "u1" then DoResult.ok { data := "one", readErr := none }
    else DoResult.ok { data := "tw", readErr := some "unexpected EOF" }
  mkdirDenied := fun _ => none
  createDenied := fun _ => none
  writeFault := fun _ _ => none

/-- A server for the C5 witness: `u1` serves `one`, every other request is refused. -/
def refusingEnv : Env where
  getVersion := fun _ _ => Except.error "404"
  newRequest := fun method url => Except.ok { method := method, url := url }
  doRequest := fun _ request =>
    if request.url = "u1" then DoResult.ok { data := "one", readErr := none }
    else DoResult.failed "connection refused"
  mkdirDenied := fun _ => none
  createDenied := fun _ => none
  writeFault := fun _ _ => none

/-- The root file of the manifest of the repository's test `TestDownloadCookbookAt`. -/
def fooMetadata : CookbookItem where
  Url := "/bookshelf/foo/metadata_rb"
  Path := "metadata.rb"
  Name := "metadata.rb"
  Checksum := "14963c5b685f3a15ea90ae51bd5454b6"
  Specificity := "default"

/-- The recipe of the manifest of the repository's test `TestDownloadCookbookAt`. -/
def fooRecipe : CookbookItem where
  Url := "/bookshelf/foo/default_rb"
  Path := "recipes/default.rb"
  Name := "default.rb"
  Checksum := "320sdk2w38020827kdlsdkasbd5454b6"
  Specificity := "default"

/-- The manifest of the repository's test `TestDownloadCookbookAt`. -/
def fooCookbook : Cookbook where
  CookbookName := "foo"
  Name := "foo-0.2.1"
  Version := "0.2.1"
  RootFiles := [fooMetadata]
  Files := []
  Templates := []
  Attributes := []
  Recipes := [fooRecipe]
  Definitions := []
  Libraries := []
  Providers := []
  Resources := []

/-- The server of the repository's test `TestDownloadCookbookAt`. -/
def fooEnv : Env where
  getVersion := fun name version =>
    if name = "foo" ∧ version = "0.2.1" then Except.ok fooCookbook else Except.error "404"
  newRequest := fun method url => Except.ok { method := method, url := url }
  doRequest := fun _ request =>
    if request.url = "/bookshelf/foo/metadata_rb" then
      DoResult.ok { data := "name 'foo'", readErr := none }
    else if request.url = "/bookshelf/foo/default_rb" then
      DoResult.ok { data := "log 'this is a resource'", readErr := none }
    else DoResult.rejected { data := "Not Found", readErr := none } "404"
  mkdirDenied := fun _ => none
  createDenied := fun _ => none
  writeFault := fun _ _ => none

/-- A filesystem holding the root and `/tmp`. -/
def tmpDisk : World :=
  { fs := fun p => if p = "/" ∨ p = "/tmp" then some Node.dir else none, trace := [] }

/-- The server of the test with a bookshelf that has lost `metadata.rb`: the request for
the only root file is answered with 404, the recipe is served. -/
def rootFailEnv : Env where
  getVersion := fun name version =>
    if name = "foo" ∧ version = "0.2.1" then Except.ok fooCookbook else Except.error "404"
  newRequest := fun method url => Except.ok { method := method, url := url }
  doRequest := fun _ request =>
    if request.url = "/bookshelf/foo/default_rb" then
      DoResult.ok { data := "log 'this is a resource'", readErr := none }
    else DoResult.rejected { data := "Not Found", readErr := none } "404"
  mkdirDenied := fun _ => none
  createDenied := fun _ => none
  writeFault := fun _ _ => none

/-- A manifest whose nine categories are empty, as in the repository's test
`TestDownloadCookbookEmptyWithVersion`. -/
def emptyCookbook : Cookbook where
  CookbookName := "foo"
  Name := "foo-0.2.0"
  Version := "0.2.0"
  RootFiles := []
  Files := []
  Templates := []
  Attributes := []
  Recipes := []
  Definitions := []
  Libraries := []
  Providers := []
  Resources := []

/-- The server of the repository's test `TestDownloadCookbookEmptyWithVersion`. -/
def emptyCookbookEnv : Env where
  getVersion := fun name version =>
    if name = "foo" ∧ version = "0.2.0" then Except.ok emptyCookbook else Except.error "404"
  newRequest := fun method url => Except.ok { method := method, url := url }
  doRequest := fun _ _ => DoResult.rejected { data := "Not Found", readErr := none } "404"
  mkdirDenied := fun _ => none
  createDenied := fun _ => none
  writeFault := fun _ _ => none

end Chef

/-! ## `path.Clean` and `path.Join`

The loop of `path.Clean` is shown to compute, element by element, what the documentation
of `path.Clean` describes (`cleanChars_unsplit`); from that, what `path.Join` returns when
a path element is joined onto a cleaned path. -/

namespace GoPath

theorem length_pushTok (rooted : Bool) (out t : List Char) :
    out.length + t.length ≤ (pushTok rooted out t).length := by
  unfold pushTok
  by_cases h : out.length = (if rooted then 1 else 0)
  · rw [if_pos h]; simp; omega
  · rw [if_neg h]; simp; omega

theorem length_foldl_pushTok (rooted : Bool) (ts : List (List Char)) (out : List Char) :
    out.length ≤ (ts.foldl (pushTok rooted) out).length := by
  induction ts generalizing out with
  | nil => simp
  | cons t ts ih =>
    simp only [List.foldl_cons]
    have h1 := length_pushTok rooted out t
    have h2 := ih (pushTok rooted out t)
    omega

theorem length_foldl_pushTok_lt (rooted : Bool) (ts : List (List Char)) (out : List Char)
    (hne : ts ≠ []) (hts : ∀ t ∈ ts, t ≠ []) :
    out.length < (ts.foldl (pushTok rooted) out).length := by
  cases ts with
  | nil => exact absurd rfl hne
  | cons t ts =>
    simp only [List.foldl_cons]
    have h1 := length_pushTok rooted out t
    have h2 := length_foldl_pushTok rooted ts (pushTok rooted out t)
    have h3 : 0 < t.length := List.length_pos.2 (hts t (List.mem_cons_self _ _))
    omega

theorem render_snoc (rooted : Bool) (ups : Nat) (comps : List (List Char)) (c : List Char) :
    render rooted ups (comps ++ [c]) = pushTok rooted (render rooted ups comps) c := by
  unfold render
  rw [← List.append_assoc, List.foldl_append]
  rfl

theorem render_ups_succ (rooted : Bool) (ups : Nat) :
    render rooted (ups + 1) [] = pushTok rooted (render rooted ups []) ['.', '.'] := by
  unfold render
  rw [List.replicate_succ', List.append_nil, List.append_nil, List.foldl_append]
  rfl

theorem render_zero_nil (rooted : Bool) : render rooted 0 [] = baseBuf rooted := rfl

theorem length_baseBuf (rooted : Bool) : (baseBuf rooted).length = if rooted then 1 else 0 := by
  cases rooted <;> rfl

theorem length_render_ups_le (rooted : Bool) (ups : Nat) (comps : List (List Char)) :
    (render rooted ups []).length ≤ (render rooted ups comps).length := by
  unfold render
  rw [List.append_nil, List.foldl_append]
  exact length_foldl_pushTok rooted comps _

theorem length_render_ups_lt (rooted : Bool) (ups : Nat) (comps : List (List Char))
    (hne : comps ≠ []) (hn : ∀ c ∈ comps, Normal c) :
    (render rooted ups []).length < (render rooted ups comps).length := by
  unfold render
  rw [List.append_nil, List.foldl_append]
  exact length_foldl_pushTok_lt rooted comps _ hne (fun t ht => (hn t ht).1)

theorem length_base_le_render (rooted : Bool) (ups : Nat) (comps : List (List Char)) :
    (baseBuf rooted).length ≤ (render rooted ups comps).length :=
  length_foldl_pushTok rooted _ _

/-- A buffer as short as the bare start holds nothing. -/
theorem render_eq_base (rooted : Bool) (ups : Nat) (comps : List (List Char))
    (hn : ∀ c ∈ comps, Normal c)
    (h : (render rooted ups comps).length = if rooted then 1 else 0) :
    ups = 0 ∧ comps = [] := by
  by_contra hcon
  have hne : List.replicate ups ['.', '.'] ++ comps ≠ [] := by
    intro h0
    rcases List.append_eq_nil.1 h0 with ⟨h1, h2⟩
    apply hcon
    refine ⟨?_, h2⟩
    cases ups with
    | zero => rfl
    | succ n => simp [List.replicate_succ] at h1
  have hlt := length_foldl_pushTok_lt rooted _ (baseBuf rooted) hne (by
    intro t ht
    rcases List.mem_append.1 ht with h1 | h1
    · rw [List.eq_of_mem_replicate h1]; simp
    · exact (hn t h1).1)
  rw [length_baseBuf] at hlt
  unfold render at h
  omega

/-- The backward scan runs through characters that are not slashes while the buffer stays
longer than the mark. -/
theorem backtrack_append (dd : Nat) (mid : List Char) (hmid : dd ≤ mid.length) :
    ∀ (xs : List Char) (dropped : Char), dropped ≠ '/' → (∀ x ∈ xs, x ≠ '/') →
      backtrack dd dropped (xs ++ mid) =
        backtrack dd ((dropped :: xs).getLast (List.cons_ne_nil _ _)) mid := by
  intro xs
  induction xs with
  | nil => intro dropped _ _; simp
  | cons x xs ih =>
    intro dropped hd hx
    have hx1 : x ≠ '/' := hx x (List.mem_cons_self _ _)
    have hlen : dd < (x :: (xs ++ mid)).length := by simp; omega
    rw [List.cons_append, backtrack, if_pos ⟨hlen, hd⟩,
      ih x hx1 (fun y hy => hx y (List.mem_cons_of_mem _ hy))]
    simp [List.getLast_cons]

theorem backtrack_slash (dd : Nat) (buf : List Char) : backtrack dd '/' buf = buf := by
  cases buf with
  | nil => rfl
  | cons c t => simp [backtrack]

theorem backtrack_short (dd : Nat) (dropped : Char) (buf : List Char) (h : buf.length ≤ dd) :
    backtrack dd dropped buf = buf := by
  cases buf with
  | nil => rfl
  | cons c t =>
    rw [backtrack, if_neg]
    intro hc
    exact absurd hc.1 (by omega)

/-- Removing the last element: the backward scan of the `..` case gives the buffer that
held the elements before it. -/
theorem backtrack_render (rooted : Bool) (ups : Nat) (init : List (List Char)) (c : List Char)
    (hc : Normal c) (hn : ∀ x ∈ init, Normal x) :
    unwind (render rooted ups []).length (render rooted ups (init ++ [c])) =
      render rooted ups init := by
  rw [render_snoc]
  obtain ⟨hc1, hc2, -, -⟩ := hc
  have hrev : c.reverse ≠ [] := by simpa using hc1
  obtain ⟨d, o, hdo⟩ := List.exists_cons_of_ne_nil hrev
  have hmem : ∀ x ∈ d :: o, x ≠ '/' := by
    intro x hx h
    rw [← hdo, List.mem_reverse, h] at hx
    exact hc2 hx
  have hd : d ≠ '/' := hmem d (List.mem_cons_self _ _)
  have ho : ∀ x ∈ o, x ≠ '/' := fun x hx => hmem x (List.mem_cons_of_mem _ hx)
  have hlast : (d :: o).getLast (List.cons_ne_nil _ _) ≠ '/' :=
    hmem _ (List.getLast_mem _)
  have hle := length_render_ups_le rooted ups init
  unfold pushTok
  rw [hdo]
  by_cases hb : (render rooted ups init).length = if rooted then 1 else 0
  · rw [if_pos hb]
    rw [List.cons_append, unwind, backtrack_append _ _ hle o d hd ho]
    obtain ⟨h1, h2⟩ := render_eq_base rooted ups init hn hb
    subst h1; subst h2
    exact backtrack_short _ _ _ (le_refl _)
  · rw [if_neg hb]
    rw [List.cons_append, unwind, backtrack_append _ _ (by simp; omega) o d hd ho]
    rw [backtrack, if_pos ⟨by simp; omega, hlast⟩, backtrack_slash]

theorem cleanLoop_nil (rooted : Bool) (fuel : Nat) (out : List Char) (dd : Nat) :
    cleanLoop rooted fuel [] out dd = out := by
  cases fuel <;> rfl

theorem cleanLoop_slash (rooted : Bool) (f : Nat) (p out : List Char) (dd : Nat) :
    cleanLoop rooted (f + 1) ('/' :: p) out dd = cleanLoop rooted f p out dd := by
  simp [cleanLoop]

theorem cleanLoop_dot (rooted : Bool) (f : Nat) (rest out : List Char) (dd : Nat)
    (hrest : rest = [] ∨ rest.head? = some '/') :
    cleanLoop rooted (f + 1) ('.' :: rest) out dd = cleanLoop rooted f rest out dd := by
  rw [cleanLoop.eq_3]
  simp only
  rw [if_neg (by decide), if_pos ⟨trivial, hrest⟩]

theorem cleanLoop_dotdot (rooted : Bool) (f : Nat) (rest out : List Char) (dd : Nat)
    (hrest : rest = [] ∨ rest.head? = some '/') :
    cleanLoop rooted (f + 1) ('.' :: '.' :: rest) out dd =
      if out.length > dd then cleanLoop rooted f rest (unwind dd out) dd
      else if !rooted then
        cleanLoop rooted f rest (pushTok false out ['.', '.'])
          (pushTok false out ['.', '.']).length
      else cleanLoop rooted f rest out dd := by
  rw [cleanLoop.eq_3]
  simp only
  rw [if_neg (by decide), if_neg (by simp), if_pos ⟨trivial, by simp, by simpa using hrest⟩]
  simp only [List.tail_cons]
  split
  · rfl
  · split
    · have : pushTok false out ['.', '.'] =
          '.' :: '.' :: (if out.length > 0 then '/' :: out else out) := by
        unfold pushTok
        by_cases h : out.length = 0
        · simp [h]
        · have : out.length > 0 := by omega
          simp [h, this]
      rw [this]
    · rfl

theorem takeWhile_token (t rest : List Char) (ht : '/' ∉ t)
    (hrest : rest = [] ∨ rest.head? = some '/') :
    (t ++ rest).takeWhile (· ≠ '/') = t ∧ (t ++ rest).dropWhile (· ≠ '/') = rest := by
  induction t with
  | nil =>
    rcases hrest with h | h
    · subst h; simp
    · cases rest with
      | nil => simp
      | cons c r =>
        simp at h; subst h
        simp [List.takeWhile, List.dropWhile]
  | cons c t ih =>
    have hc : c ≠ '/' := fun h => ht (by rw [h]; exact List.mem_cons_self _ _)
    have ht2 : '/' ∉ t := fun h => ht (List.mem_cons_of_mem _ h)
    obtain ⟨h1, h2⟩ := ih ht2
    have hdec : (decide (c ≠ '/')) = true := decide_eq_true hc
    rw [List.cons_append, List.takeWhile_cons, List.dropWhile_cons]
    simp only [hdec, if_true]
    rw [h1, h2]
    exact ⟨rfl, rfl⟩

theorem cleanLoop_normal (rooted : Bool) (f : Nat) (t rest out : List Char) (dd : Nat)
    (ht : Normal t) (hrest : rest = [] ∨ rest.head? = some '/') :
    cleanLoop rooted (f + 1) (t ++ rest) out dd =
      cleanLoop rooted f rest (pushTok rooted out t) dd := by
  obtain ⟨h1, h2, h3, h4⟩ := ht
  obtain ⟨c, t1, rfl⟩ := List.exists_cons_of_ne_nil h1
  have hc : c ≠ '/' := fun h => h2 (by rw [h]; exact List.mem_cons_self _ _)
  have ht1 : '/' ∉ t1 := fun h => h2 (List.mem_cons_of_mem _ h)
  obtain ⟨htw, hdw⟩ := takeWhile_token (c :: t1) rest h2 hrest
  rw [List.cons_append, cleanLoop.eq_3]
  simp only
  have hb2 : ¬ (c = '.' ∧ (t1 ++ rest = [] ∨ (t1 ++ rest).head? = some '/')) := by
    rintro ⟨rfl, h⟩
    cases t1 with
    | nil => exact h3 rfl
    | cons x xs =>
      rcases h with h | h
      · simp at h
      · simp at h; subst h; exact ht1 (List.mem_cons_self _ _)
  have hb3 : ¬ (c = '.' ∧ (t1 ++ rest).head? = some '.' ∧
      ((t1 ++ rest).tail = [] ∨ (t1 ++ rest).tail.head? = some '/')) := by
    rintro ⟨rfl, h, h'⟩
    cases t1 with
    | nil =>
      rcases hrest with hr | hr
      · subst hr; simp at h
      · simp at h; rw [hr] at h; simp at h
    | cons x xs =>
      simp at h; subst h
      cases xs with
      | nil => exact h4 rfl
      | cons y ys =>
        rcases h' with h' | h'
        · simp at h'
        · simp at h'; subst h'
          exact ht1 (List.mem_cons_of_mem _ (List.mem_cons_self _ _))
  rw [if_neg hc, if_neg hb2, if_neg hb3]
  rw [← List.cons_append, htw, hdw]
  unfold pushTok
  cases rooted
  · simp
  · simp

theorem length_render_gt_iff (rooted : Bool) (ups : Nat) (comps : List (List Char))
    (hn : ∀ c ∈ comps, Normal c) :
    (render rooted ups comps).length > (render rooted ups []).length ↔ comps ≠ [] := by
  constructor
  · intro h hc
    subst hc
    exact absurd h (lt_irrefl _)
  · intro h
    exact length_render_ups_lt rooted ups comps h hn

/-- One path element takes the loop from a state that matches an element-wise state to one
that matches the element-wise state after `stepTok`. -/
theorem cleanLoop_token (rooted : Bool) (t rest : List Char) (ht : '/' ∉ t)
    (hrest : rest = [] ∨ rest.head? = some '/') (f : Nat) (out : List Char) (dd : Nat)
    (st : Nat × List (List Char)) (hinv : Inv rooted out dd st)
    (hf : (t ++ rest).length ≤ f) :
    ∃ f' out' dd', rest.length ≤ f' ∧ Inv rooted out' dd' (stepTok rooted st t) ∧
      cleanLoop rooted f (t ++ rest) out dd = cleanLoop rooted f' rest out' dd' := by
  obtain ⟨ups, comps⟩ := st
  obtain ⟨hout, hdd, hroot, hnorm⟩ := hinv
  simp only at hout hdd hroot hnorm
  by_cases h0 : t = []
  · subst h0
    refine ⟨f, out, dd, by simpa using hf, ?_, rfl⟩
    simp only [stepTok, true_or, if_true]
    exact ⟨hout, hdd, hroot, hnorm⟩
  by_cases h1 : t = ['.']
  · subst h1
    obtain ⟨f0, rfl⟩ : ∃ f0, f = f0 + 1 := ⟨f - 1, by simp at hf; omega⟩
    refine ⟨f0, out, dd, by simp at hf; omega, ?_, ?_⟩
    · simp only [stepTok, or_true, if_true]
      exact ⟨hout, hdd, hroot, hnorm⟩
    · exact cleanLoop_dot rooted f0 rest out dd hrest
  by_cases h2 : t = ['.', '.']
  · subst h2
    obtain ⟨f0, rfl⟩ : ∃ f0, f = f0 + 1 := ⟨f - 1, by simp at hf; omega⟩
    have hlen : rest.length ≤ f0 := by simp at hf; omega
    have hstep : ∀ x, stepTok rooted (ups, comps) ['.', '.'] = x ↔
        (if comps ≠ [] then (ups, comps.dropLast)
          else if rooted then (ups, comps) else (ups + 1, [])) = x := by
      intro x; simp [stepTok]
    have hcl := cleanLoop_dotdot rooted f0 rest out dd hrest
    simp only [List.cons_append, List.nil_append]
    rw [hcl]
    by_cases hc : comps = []
    · subst hc
      have hnot : ¬ out.length > dd := by rw [hout, hdd]; exact lt_irrefl _
      rw [if_neg hnot]
      cases rooted with
      | true =>
        refine ⟨f0, out, dd, hlen, ?_, by simp⟩
        have : stepTok true (ups, []) ['.', '.'] = (ups, []) := by simp [stepTok]
        rw [this]
        exact ⟨hout, hdd, hroot, hnorm⟩
      | false =>
        refine ⟨f0, pushTok false out ['.', '.'], (pushTok false out ['.', '.']).length,
          hlen, ?_, by simp⟩
        have : stepTok false (ups, []) ['.', '.'] = (ups + 1, []) := by simp [stepTok]
        rw [this]
        refine ⟨?_, ?_, by simp, by simp⟩
        · rw [hout]; exact (render_ups_succ false ups).symm
        · rw [hout]; simp only; rw [render_ups_succ]
    · have hgt : out.length > dd := by
        rw [hout, hdd]; exact (length_render_gt_iff rooted ups comps hnorm).2 hc
      rw [if_pos hgt]
      have hsplit := List.dropLast_append_getLast hc
      have hlastN : Normal (comps.getLast hc) := hnorm _ (List.getLast_mem hc)
      have hinitN : ∀ x ∈ comps.dropLast, Normal x :=
        fun x hx => hnorm x (List.mem_of_mem_dropLast hx)
      have hun := backtrack_render rooted ups comps.dropLast (comps.getLast hc) hlastN hinitN
      rw [hsplit] at hun
      refine ⟨f0, unwind dd out, dd, hlen, ?_, rfl⟩
      have : stepTok rooted (ups, comps) ['.', '.'] = (ups, comps.dropLast) := by
        simp [stepTok, hc]
      rw [this]
      refine ⟨?_, hdd, hroot, hinitN⟩
      rw [hdd, hout]; exact hun
  · have hN : Normal t := ⟨h0, ht, h1, h2⟩
    obtain ⟨f0, rfl⟩ : ∃ f0, f = f0 + 1 := by
      have : 0 < t.length := List.length_pos.2 h0
      exact ⟨f - 1, by simp at hf; omega⟩
    have hlen : rest.length ≤ f0 := by
      have : 0 < t.length := List.length_pos.2 h0
      simp at hf; omega
    refine ⟨f0, pushTok rooted out t, dd, hlen, ?_, cleanLoop_normal rooted f0 t rest out dd hN hrest⟩
    have : stepTok rooted (ups, comps) t = (ups, comps ++ [t]) := by
      simp [stepTok, h0, h1, h2]
    rw [this]
    refine ⟨?_, hdd, hroot, ?_⟩
    · simp only; rw [render_snoc, hout]
    · intro c hc
      rcases List.mem_append.1 hc with h | h
      · exact hnorm c h
      · simp at h; subst h; exact hN

/-- The loop of `path.Clean` on a path given by its elements is the element-wise fold. -/
theorem cleanLoop_unsplit (rooted : Bool) (toks : List (List Char))
    (hne : toks ≠ []) (hts : ∀ t ∈ toks, '/' ∉ t) (f : Nat) (out : List Char) (dd : Nat)
    (st : Nat × List (List Char)) (hinv : Inv rooted out dd st)
    (hf : (unsplit toks).length ≤ f) :
    cleanLoop rooted f (unsplit toks) out dd =
      render rooted (toks.foldl (stepTok rooted) st).1 (toks.foldl (stepTok rooted) st).2 := by
  induction toks generalizing f out dd st with
  | nil => exact absurd rfl hne
  | cons t ts ih =>
    cases ts with
    | nil =>
      have ht := hts t (List.mem_cons_self _ _)
      obtain ⟨f', out', dd', -, hinv', heq⟩ :=
        cleanLoop_token rooted t [] ht (Or.inl rfl) f out dd st hinv (by simpa [unsplit] using hf)
      simp only [unsplit, List.foldl_cons, List.foldl_nil]
      rw [List.append_nil] at heq
      rw [heq, cleanLoop_nil]
      exact hinv'.1
    | cons t2 ts =>
      have ht := hts t (List.mem_cons_self _ _)
      obtain ⟨f', out', dd', hf', hinv', heq⟩ :=
        cleanLoop_token rooted t ('/' :: unsplit (t2 :: ts)) ht (Or.inr rfl) f out dd st hinv
          (by simpa [unsplit] using hf)
      simp only [unsplit, List.foldl_cons] at heq ⊢
      rw [heq]
      obtain ⟨f0, rfl⟩ : ∃ f0, f' = f0 + 1 := ⟨f' - 1, by simp at hf'; omega⟩
      rw [cleanLoop_slash]
      have := ih (List.cons_ne_nil _ _) (fun x hx => hts x (List.mem_cons_of_mem _ hx)) f0
        out' dd' (stepTok rooted st t) hinv' (by simp at hf'; omega)
      simpa using this

theorem unsplit_cons (t : List Char) (ts : List (List Char)) (hne : ts ≠ []) :
    unsplit (t :: ts) = t ++ '/' :: unsplit ts := by
  cases ts with
  | nil => exact absurd rfl hne
  | cons t2 ts => rfl

theorem unsplit_snoc (ts : List (List Char)) (c : List Char) (hne : ts ≠ []) :
    unsplit (ts ++ [c]) = unsplit ts ++ '/' :: c := by
  induction ts with
  | nil => exact absurd rfl hne
  | cons t ts ih =>
    cases ts with
    | nil => rfl
    | cons t2 ts =>
      have h := ih (List.cons_ne_nil _ _)
      simp only [List.cons_append] at h ⊢
      simp only [unsplit]
      rw [h]
      simp

/-- Every path is the concatenation of its slash-free elements. -/
theorem exists_unsplit (s : List Char) :
    ∃ toks, toks ≠ [] ∧ (∀ t ∈ toks, '/' ∉ t) ∧ unsplit toks = s := by
  induction s with
  | nil => exact ⟨[[]], by simp, by simp, rfl⟩
  | cons c s ih =>
    obtain ⟨toks, hne, hts, hs⟩ := ih
    obtain ⟨t, ts, rfl⟩ := List.exists_cons_of_ne_nil hne
    by_cases hc : c = '/'
    · subst hc
      refine ⟨[] :: t :: ts, by simp, ?_, ?_⟩
      · intro x hx
        rcases List.mem_cons.1 hx with h | h
        · subst h; simp
        · exact hts x h
      · simp only [unsplit, List.nil_append]; rw [hs]
    · refine ⟨(c :: t) :: ts, by simp, ?_, ?_⟩
      · intro x hx
        rcases List.mem_cons.1 hx with h | h
        · subst h
          intro hm
          rcases List.mem_cons.1 hm with h1 | h1
          · exact hc h1.symm
          · exact hts t (List.mem_cons_self _ _) h1
        · exact hts x (List.mem_cons_of_mem _ h)
      · cases ts with
        | nil => simp only [unsplit] at hs ⊢; rw [hs]
        | cons t2 ts => simp only [unsplit] at hs ⊢; rw [← hs]; simp

theorem stepTok_nil (rooted : Bool) (st : Nat × List (List Char)) : stepTok rooted st [] = st := by
  simp [stepTok]

theorem inv_base (rooted : Bool) :
    Inv rooted (baseBuf rooted) (baseBuf rooted).length (0, []) :=
  ⟨rfl, rfl, fun _ => rfl, by simp⟩

/-- Go's `path.Clean` computes the element-wise fold of the path's elements. -/
theorem cleanChars_unsplit (toks : List (List Char)) (hne : toks ≠ [])
    (hts : ∀ t ∈ toks, '/' ∉ t) (hs : unsplit toks ≠ []) :
    cleanChars (unsplit toks) =
      finish (render (decide ((unsplit toks).head? = some '/'))
        (toks.foldl (stepTok (decide ((unsplit toks).head? = some '/'))) (0, [])).1
        (toks.foldl (stepTok (decide ((unsplit toks).head? = some '/'))) (0, [])).2) := by
  unfold cleanChars
  rw [if_neg hs]
  simp only
  by_cases hr : (unsplit toks).head? = some '/'
  · rw [if_pos hr]
    simp only [hr, decide_True]
    obtain ⟨t, ts, rfl⟩ := List.exists_cons_of_ne_nil hne
    cases ts with
    | nil =>
      exfalso
      simp only [unsplit] at hr
      have := hts t (List.mem_cons_self _ _)
      cases t with
      | nil => simp at hr
      | cons c t => simp at hr; subst hr; exact this (List.mem_cons_self _ _)
    | cons t2 ts =>
      have ht0 : t = [] := by
        have := hts t (List.mem_cons_self _ _)
        cases t with
        | nil => rfl
        | cons c t =>
          simp [unsplit] at hr; subst hr; exact absurd (List.mem_cons_self _ _) this
      subst ht0
      simp only [unsplit, List.nil_append, List.tail_cons, List.foldl_cons, stepTok_nil]
      have := cleanLoop_unsplit true (t2 :: ts) (List.cons_ne_nil _ _)
        (fun x hx => hts x (List.mem_cons_of_mem _ hx))
        (unsplit (t2 :: ts)).length.succ ['/'] 1 (0, []) (inv_base true) (Nat.le_succ _)
      simp only [List.length_cons]
      rw [this]
      rfl
  · rw [if_neg hr]
    simp only [hr, decide_False]
    have := cleanLoop_unsplit false toks hne hts (unsplit toks).length [] 0 (0, [])
      (inv_base false) (le_refl _)
    rw [this]
    rfl

theorem stateOk_stepTok (rooted : Bool) (st : Nat × List (List Char)) (t : List Char)
    (ht : '/' ∉ t) (h : StateOk rooted st) : StateOk rooted (stepTok rooted st t) := by
  obtain ⟨ups, comps⟩ := st
  obtain ⟨h1, h2⟩ := h
  unfold stepTok
  split
  · exact ⟨h1, h2⟩
  · rename_i hne
    split
    · split
      · exact ⟨h1, fun c hc => h2 c (List.mem_of_mem_dropLast hc)⟩
      · split
        · exact ⟨h1, h2⟩
        · rename_i hr
          exact ⟨fun h => absurd h hr, by simp⟩
    · rename_i hdd
      refine ⟨h1, ?_⟩
      intro c hc
      rcases List.mem_append.1 hc with h | h
      · exact h2 c h
      · simp at h; subst h
        simp only [not_or] at hne
        exact ⟨hne.1, ht, hne.2, hdd⟩

theorem stateOk_foldl (rooted : Bool) (toks : List (List Char)) (hts : ∀ t ∈ toks, '/' ∉ t)
    (st : Nat × List (List Char)) (h : StateOk rooted st) :
    StateOk rooted (toks.foldl (stepTok rooted) st) := by
  induction toks generalizing st with
  | nil => exact h
  | cons t ts ih =>
    exact ih (fun x hx => hts x (List.mem_cons_of_mem _ hx)) _
      (stateOk_stepTok rooted st t (hts t (List.mem_cons_self _ _)) h)

theorem cleaned_cleanChars (s : List Char) : Cleaned (cleanChars s) := by
  by_cases hs : s = []
  · subst hs
    exact ⟨false, 0, [], ⟨by simp, by simp⟩, rfl⟩
  · obtain ⟨toks, hne, hts, rfl⟩ := exists_unsplit s
    rw [cleanChars_unsplit toks hne hts hs]
    exact ⟨_, _, _, stateOk_foldl _ toks hts (0, []) ⟨fun _ => rfl, by simp⟩, rfl⟩

theorem foldl_pushTok_false (L : List (List Char)) (hL : ∀ t ∈ L, t ≠ []) :
    (L.foldl (pushTok false) []).reverse = unsplit L := by
  induction L using List.reverseRecOn with
  | nil => rfl
  | append_singleton L c ih =>
    have hL' : ∀ t ∈ L, t ≠ [] := fun t ht => hL t (List.mem_append_left _ ht)
    rw [List.foldl_append]
    simp only [List.foldl_cons, List.foldl_nil]
    have hp : ∀ out, pushTok false out c =
        c.reverse ++ (if out.length = 0 then out else '/' :: out) := fun out => by
      simp [pushTok]
    rw [hp]
    by_cases hn : L = []
    · subst hn; simp [unsplit]
    · have hlt := length_foldl_pushTok_lt false L [] hn hL'
      have hne : ¬ (List.foldl (pushTok false) [] L).length = 0 := by
        simp at hlt
        omega
      rw [if_neg hne, unsplit_snoc L c hn, ← ih hL']
      simp

theorem foldl_pushTok_true (L : List (List Char)) (hL : ∀ t ∈ L, t ≠ []) :
    (L.foldl (pushTok true) ['/']).reverse = '/' :: unsplit L := by
  induction L using List.reverseRecOn with
  | nil => rfl
  | append_singleton L c ih =>
    have hL' : ∀ t ∈ L, t ≠ [] := fun t ht => hL t (List.mem_append_left _ ht)
    rw [List.foldl_append]
    simp only [List.foldl_cons, List.foldl_nil]
    have hp : ∀ out, pushTok true out c =
        c.reverse ++ (if out.length = 1 then out else '/' :: out) := fun out => by
      simp [pushTok]
    rw [hp]
    by_cases hn : L = []
    · subst hn; simp [unsplit]
    · have hlt := length_foldl_pushTok_lt true L ['/'] hn hL'
      have hne : ¬ (List.foldl (pushTok true) ['/'] L).length = 1 := by
        simp at hlt
        omega
      rw [if_neg hne, unsplit_snoc L c hn]
      simp [ih hL']

theorem reverse_render (rooted : Bool) (ups : Nat) (comps : List (List Char))
    (hok : StateOk rooted (ups, comps)) :
    (render rooted ups comps).reverse = unsplit (canonToks rooted ups comps) := by
  obtain ⟨h1, h2⟩ := hok
  simp only at h1 h2
  cases rooted with
  | true =>
    have := h1 rfl
    subst this
    unfold render canonToks
    simp only [List.replicate_zero, List.nil_append, if_true]
    have hb : baseBuf true = ['/'] := rfl
    rw [hb, foldl_pushTok_true comps (fun t ht => (h2 t ht).1)]
    by_cases hc : comps = []
    · subst hc; rfl
    · rw [if_neg hc, unsplit_cons [] comps hc]; rfl
  | false =>
    unfold render canonToks
    simp only [Bool.false_eq_true, if_false]
    have hb : baseBuf false = [] := rfl
    rw [hb]
    apply foldl_pushTok_false
    intro t ht
    rcases List.mem_append.1 ht with h | h
    · rw [List.eq_of_mem_replicate h]; simp
    · exact (h2 t h).1

theorem foldl_stepTok_ups (ups k : Nat) :
    (List.replicate ups ['.', '.']).foldl (stepTok false) (k, []) = (k + ups, []) := by
  induction ups generalizing k with
  | zero => rfl
  | succ n ih =>
    rw [List.replicate_succ, List.foldl_cons]
    have : stepTok false (k, []) ['.', '.'] = (k + 1, []) := by simp [stepTok]
    rw [this, ih]
    congr 1
    omega

theorem foldl_stepTok_normal (rooted : Bool) (comps : List (List Char))
    (hn : ∀ c ∈ comps, Normal c) (ups : Nat) (acc : List (List Char)) :
    comps.foldl (stepTok rooted) (ups, acc) = (ups, acc ++ comps) := by
  induction comps generalizing acc with
  | nil => simp
  | cons c cs ih =>
    obtain ⟨h1, -, h3, h4⟩ := hn c (List.mem_cons_self _ _)
    rw [List.foldl_cons]
    have : stepTok rooted (ups, acc) c = (ups, acc ++ [c]) := by simp [stepTok, h1, h3, h4]
    rw [this, ih (fun x hx => hn x (List.mem_cons_of_mem _ hx))]
    simp

theorem foldl_canonToks (rooted : Bool) (ups : Nat) (comps : List (List Char))
    (hok : StateOk rooted (ups, comps)) :
    (canonToks rooted ups comps).foldl (stepTok rooted) (0, []) = (ups, comps) := by
  obtain ⟨h1, h2⟩ := hok
  simp only at h1 h2
  cases rooted with
  | true =>
    have := h1 rfl
    subst this
    unfold canonToks
    simp only [if_true, List.foldl_cons, stepTok_nil]
    by_cases hc : comps = []
    · subst hc; simp [stepTok_nil]
    · rw [if_neg hc, foldl_stepTok_normal true comps h2]; simp
  | false =>
    unfold canonToks
    simp only [Bool.false_eq_true, if_false]
    rw [List.foldl_append, foldl_stepTok_ups, foldl_stepTok_normal false comps h2]
    simp

theorem canonToks_no_slash (rooted : Bool) (ups : Nat) (comps : List (List Char))
    (hok : StateOk rooted (ups, comps)) : ∀ t ∈ canonToks rooted ups comps, '/' ∉ t := by
  obtain ⟨h1, h2⟩ := hok
  simp only at h1 h2
  intro t ht
  unfold canonToks at ht
  cases rooted with
  | true =>
    simp only [if_true] at ht
    rcases List.mem_cons.1 ht with h | h
    · subst h; simp
    · by_cases hc : comps = []
      · rw [if_pos hc] at h; simp at h; subst h; simp
      · rw [if_neg hc] at h; exact (h2 t h).2.1
  | false =>
    simp only [Bool.false_eq_true, if_false] at ht
    rcases List.mem_append.1 ht with h | h
    · rw [List.eq_of_mem_replicate h]; decide
    · exact (h2 t h).2.1

theorem stepTok_normal (rooted : Bool) (st : Nat × List (List Char)) (c : List Char)
    (hc : Normal c) : stepTok rooted st c = (st.1, st.2 ++ [c]) := by
  obtain ⟨h1, -, h3, h4⟩ := hc
  simp [stepTok, h1, h3, h4]

theorem finish_render_snoc (rooted : Bool) (ups : Nat) (comps : List (List Char))
    (c : List Char) (hc : Normal c) :
    finish (render rooted ups (comps ++ [c])) = (render rooted ups (comps ++ [c])).reverse := by
  unfold finish
  rw [if_neg]
  rw [render_snoc]
  have h1 := length_pushTok rooted (render rooted ups comps) c
  have h2 : 0 < c.length := List.length_pos.2 hc.1
  omega

theorem head_unsplit_no_slash (L : List (List Char)) (hne : L ≠ [])
    (hL : ∀ t ∈ L, t ≠ [] ∧ '/' ∉ t) (rest : List Char) :
    (unsplit L ++ rest).head? ≠ some '/' := by
  obtain ⟨t, ts, rfl⟩ := List.exists_cons_of_ne_nil hne
  obtain ⟨h1, h2⟩ := hL t (List.mem_cons_self _ _)
  obtain ⟨x, xs, rfl⟩ := List.exists_cons_of_ne_nil h1
  have hx : x ≠ '/' := fun h => h2 (by rw [h]; exact List.mem_cons_self _ _)
  cases ts with
  | nil => simpa [unsplit] using hx
  | cons t2 ts => simpa [unsplit] using hx

theorem canonToks_ne_nil (rooted : Bool) (ups : Nat) (comps : List (List Char))
    (h : render rooted ups comps ≠ []) : canonToks rooted ups comps ≠ [] := by
  unfold canonToks
  cases rooted with
  | true => simp
  | false =>
    simp only [Bool.false_eq_true, if_false]
    intro h0
    apply h
    unfold render
    rw [h0]
    rfl

/-- Whether the text of a non-empty buffer starts with a slash. -/
theorem head_reverse_render (rooted : Bool) (ups : Nat) (comps : List (List Char))
    (hok : StateOk rooted (ups, comps)) (h : render rooted ups comps ≠ []) (rest : List Char) :
    decide (((render rooted ups comps).reverse ++ rest).head? = some '/') = rooted := by
  cases rooted with
  | true =>
    have h0 := hok.1 rfl
    simp only at h0
    subst h0
    unfold render
    simp only [List.replicate_zero, List.nil_append]
    have hb : baseBuf true = ['/'] := rfl
    have e := foldl_pushTok_true comps (fun t ht => (hok.2 t ht).1)
    apply decide_eq_true
    rw [hb, e]
    rfl
  | false =>
    have hne := canonToks_ne_nil false ups comps h
    rw [reverse_render false ups comps hok]
    have := head_unsplit_no_slash (canonToks false ups comps) hne (by
      intro t ht
      refine ⟨?_, canonToks_no_slash false ups comps hok t ht⟩
      unfold canonToks at ht
      simp only [Bool.false_eq_true, if_false] at ht
      rcases List.mem_append.1 ht with h1 | h1
      · rw [List.eq_of_mem_replicate h1]; simp
      · exact (hok.2 t h1).1) rest
    simpa using this

/-- Cleaning a cleaned path followed by a slash and a real element appends the element. -/
theorem cleanChars_append (rooted : Bool) (ups : Nat) (comps : List (List Char))
    (hok : StateOk rooted (ups, comps)) (c : List Char) (hc : Normal c) :
    cleanChars (finish (render rooted ups comps) ++ '/' :: c) =
      (render rooted ups (comps ++ [c])).reverse := by
  by_cases h0 : (render rooted ups comps).length = 0
  · have hr : rooted = false := by
      cases rooted with
      | false => rfl
      | true =>
        have := length_base_le_render true ups comps
        rw [length_baseBuf] at this
        simp at this
        omega
    subst hr
    obtain ⟨hu, hcs⟩ := render_eq_base false ups comps hok.2 (by simpa using h0)
    subst hu; subst hcs
    have hfin : finish (render false 0 []) = ['.'] := rfl
    rw [hfin]
    have hsplit : ['.'] ++ '/' :: c = unsplit [['.'], c] := rfl
    rw [hsplit, cleanChars_unsplit [['.'], c] (by simp) (by
      intro t ht
      simp at ht
      rcases ht with h | h
      · subst h; decide
      · subst h; exact hc.2.1) (by simp [unsplit])]
    have hh : decide ((unsplit [['.'], c]).head? = some '/') = false := by
      simp [unsplit]
    rw [hh]
    have hf : List.foldl (stepTok false) (0, []) [['.'], c] = (0, [] ++ [c]) := by
      simp only [List.foldl_cons, List.foldl_nil]
      have : stepTok false (0, []) ['.'] = (0, []) := by simp [stepTok]
      rw [this, stepTok_normal false _ c hc]
    rw [hf]
    exact finish_render_snoc false 0 [] c hc
  · have hne : render rooted ups comps ≠ [] := fun h => h0 (by rw [h]; rfl)
    have hfin : finish (render rooted ups comps) = (render rooted ups comps).reverse := by
      unfold finish; rw [if_neg h0]
    rw [hfin]
    have hhead := head_reverse_render rooted ups comps hok hne ('/' :: c)
    have hT := canonToks_ne_nil rooted ups comps hne
    have hrev := reverse_render rooted ups comps hok
    rw [hrev] at hhead ⊢
    rw [← unsplit_snoc _ c hT] at hhead ⊢
    rw [cleanChars_unsplit _ (by simp) (by
      intro t ht
      rcases List.mem_append.1 ht with h | h
      · exact canonToks_no_slash rooted ups comps hok t h
      · simp at h; subst h; exact hc.2.1) (by
      rw [unsplit_snoc _ c hT]; simp)]
    rw [hhead, List.foldl_append, foldl_canonToks rooted ups comps hok]
    simp only [List.foldl_cons, List.foldl_nil]
    rw [stepTok_normal rooted _ c hc]
    exact finish_render_snoc rooted ups comps c hc

/-- Cleaning a path followed by a slash and a real element ends in that element. -/
theorem cleanChars_snoc_normal (a c : List Char) (hc : Normal c) :
    ∃ rooted ups comps, StateOk rooted (ups, comps) ∧
      cleanChars (a ++ '/' :: c) = (render rooted ups (comps ++ [c])).reverse := by
  obtain ⟨toks, hne, hts, rfl⟩ := exists_unsplit a
  rw [← unsplit_snoc _ c hne]
  rw [cleanChars_unsplit _ (by simp) (by
    intro t ht
    rcases List.mem_append.1 ht with h | h
    · exact hts t h
    · simp at h; subst h; exact hc.2.1) (by rw [unsplit_snoc _ c hne]; simp)]
  rw [List.foldl_append]
  simp only [List.foldl_cons, List.foldl_nil]
  rw [stepTok_normal _ _ c hc]
  generalize decide ((unsplit (toks ++ [c])).head? = some '/') = rooted
  exact ⟨rooted, (toks.foldl (stepTok rooted) (0, [])).1, (toks.foldl (stepTok rooted) (0, [])).2,
    stateOk_foldl rooted toks hts (0, []) ⟨fun _ => rfl, by simp⟩,
    finish_render_snoc _ _ _ c hc⟩

/-- Cleaning a single real element leaves it alone. -/
theorem cleanChars_normal (c : List Char) (hc : Normal c) :
    cleanChars c = (render false 0 ([] ++ [c])).reverse := by
  have hsplit : c = unsplit [c] := rfl
  have hh : decide ((unsplit [c]).head? = some '/') = false := by
    have := head_unsplit_no_slash [c] (by simp) (by
      intro t ht; simp at ht; subst ht; exact ⟨hc.1, hc.2.1⟩) []
    simpa using this
  conv_lhs => rw [hsplit]
  rw [cleanChars_unsplit [c] (by simp) (by
    intro t ht; simp at ht; subst ht; exact hc.2.1) (by simpa [unsplit] using hc.1)]
  rw [hh]
  simp only [List.foldl_cons, List.foldl_nil]
  rw [stepTok_normal false _ c hc]
  exact finish_render_snoc false 0 [] c hc

theorem string_eq_empty_iff (a : String) : a = "" ↔ a.data = [] := by
  constructor
  · intro h; subst h; rfl
  · intro h; exact String.ext h

/-- The result of `path.Join` on two elements: nothing for two empty elements, otherwise the cleaned
concatenation from the first non-empty element on. -/
theorem join_pair (a b : String) :
    Join [a, b] =
      if a = "" then (if b = "" then "" else ⟨cleanChars b.data⟩)
      else ⟨cleanChars (a.data ++ '/' :: b.data)⟩ := by
  unfold Join
  simp only [List.map_cons, List.map_nil, List.sum_cons, List.sum_nil, Nat.add_zero,
    String.length]
  by_cases ha : a = ""
  · subst ha
    by_cases hb : b = ""
    · subst hb; rfl
    · have hbd : b.data ≠ [] := fun h => hb ((string_eq_empty_iff b).2 h)
      have hlen : ¬ (("" : String).data.length + b.data.length = 0) := by
        have : 0 < b.data.length := List.length_pos.2 hbd
        have h0 : ("" : String).data.length = 0 := rfl
        omega
      rw [if_neg hlen, if_pos rfl, if_neg hb]
      simp [joinBuf, hb]
  · have had : a.data ≠ [] := fun h => ha ((string_eq_empty_iff a).2 h)
    have hpos : 0 < a.data.length := List.length_pos.2 had
    have hlen : ¬ (a.data.length + b.data.length = 0) := by omega
    rw [if_neg hlen, if_neg ha]
    have hpos' : 0 < a.length := hpos
    simp [joinBuf, ha, hpos']

theorem join_normal_proper (a c : String) (hc : Normal c.data) : Proper (Join [a, c]) := by
  have hcne : c ≠ "" := fun h => hc.1 ((string_eq_empty_iff c).1 h)
  rw [join_pair]
  by_cases ha : a = ""
  · rw [if_pos ha, if_neg hcne]
    exact ⟨false, 0, [], c.data, ⟨by simp, by simp⟩, hc, cleanChars_normal c.data hc⟩
  · rw [if_neg ha]
    obtain ⟨rooted, ups, comps, hok, h⟩ := cleanChars_snoc_normal a.data c.data hc
    exact ⟨rooted, ups, comps, c.data, hok, hc, h⟩

theorem reverse_pushTok_of_ne (rooted : Bool) (out c : List Char)
    (h : out.length ≠ if rooted then 1 else 0) :
    (pushTok rooted out c).reverse = out.reverse ++ '/' :: c := by
  unfold pushTok
  rw [if_neg h]
  simp

theorem proper_data_ne_nil (d : String) (hd : Proper d) : d.data ≠ [] := by
  obtain ⟨rooted, ups, comps, c, -, hc, h⟩ := hd
  rw [h, render_snoc]
  intro h0
  have h1 := length_pushTok rooted (render rooted ups comps) c
  have h2 : 0 < c.length := List.length_pos.2 hc.1
  have h3 := congrArg List.length h0
  rw [List.length_reverse] at h3
  simp only [List.length_nil] at h3
  omega

/-- Joining a real element onto a cleaned path that ends in one appends it after a
slash. -/
theorem proper_join (d c : String) (hd : Proper d) (hc : Normal c.data) :
    Join [d, c] = d ++ "/" ++ c := by
  have hne := proper_data_ne_nil d hd
  obtain ⟨rooted, ups, comps, c0, hok, hc0, h⟩ := hd
  have hdne : d ≠ "" := fun h0 => hne ((string_eq_empty_iff d).1 h0)
  rw [join_pair, if_neg hdne]
  apply String.ext
  simp only [String.data_append]
  have hok' : StateOk rooted (ups, comps ++ [c0]) := by
    refine ⟨hok.1, ?_⟩
    intro x hx
    rcases List.mem_append.1 hx with h1 | h1
    · exact hok.2 x h1
    · simp at h1; subst h1; exact hc0
  have hfin := finish_render_snoc rooted ups comps c0 hc0
  rw [h, ← hfin, cleanChars_append rooted ups (comps ++ [c0]) hok' c.data hc, render_snoc,
    reverse_pushTok_of_ne]
  · rw [hfin]; simp
  · intro hlen
    have := (render_eq_base rooted ups (comps ++ [c0]) hok'.2 hlen).2
    simp at this

/-- What `path.Join` returns: nothing, or a cleaned path. -/
theorem join_pair_cleaned (a b : String) : Join [a, b] = "" ∨ Cleaned (Join [a, b]).data := by
  rw [join_pair]
  by_cases ha : a = ""
  · rw [if_pos ha]
    by_cases hb : b = ""
    · rw [if_pos hb]; exact Or.inl rfl
    · rw [if_neg hb]; exact Or.inr (cleaned_cleanChars _)
  · rw [if_neg ha]; exact Or.inr (cleaned_cleanChars _)

/-- Joining a real element onto a cleaned path: the three shapes of the result. -/
theorem cleaned_join_cases (d c : String) (hd : Cleaned d.data) (hc : Normal c.data) :
    (d = "." ∧ Join [d, c] = c) ∨ (d = "/" ∧ Join [d, c] = "/" ++ c) ∨
      (d ≠ "" ∧ Join [d, c] = d ++ "/" ++ c) := by
  obtain ⟨rooted, ups, comps, hok, h⟩ := hd
  have hdne : d ≠ "" := by
    intro h0
    subst h0
    unfold finish at h
    split at h
    · simp at h
    · rename_i hl
      have h1 := congrArg List.length h
      simp at h1
      exact hl h1.symm
  have hj : Join [d, c] = ⟨(render rooted ups (comps ++ [c.data])).reverse⟩ := by
    rw [join_pair, if_neg hdne, h, cleanChars_append rooted ups comps hok c.data hc]
  by_cases hb : (render rooted ups comps).length = if rooted then 1 else 0
  · obtain ⟨hu, hcs⟩ := render_eq_base rooted ups comps hok.2 hb
    subst hu; subst hcs
    cases rooted with
    | false =>
      left
      refine ⟨String.ext h, ?_⟩
      rw [hj]
      apply String.ext
      simp [render, pushTok, baseBuf]
    | true =>
      right; left
      refine ⟨String.ext h, ?_⟩
      rw [hj]
      apply String.ext
      simp [render, pushTok, baseBuf]
  · right; right
    refine ⟨hdne, ?_⟩
    rw [hj]
    apply String.ext
    simp only [String.data_append]
    rw [render_snoc, reverse_pushTok_of_ne _ _ _ hb, h]
    have : finish (render rooted ups comps) = (render rooted ups comps).reverse := by
      unfold finish
      rw [if_neg]
      intro h0
      cases rooted with
      | false => exact hb (by simpa using h0)
      | true =>
        have := length_base_le_render true ups comps
        rw [length_baseBuf] at this
        simp at this
        omega
    rw [this]
    simp

theorem proper_ne_root (d : String) (hd : Proper d) : d ≠ "/" ∧ d ≠ "." := by
  obtain ⟨rooted, ups, comps, c, -, hc, h⟩ := hd
  rw [render_snoc] at h
  unfold pushTok at h
  rw [List.reverse_append, List.reverse_reverse] at h
  obtain ⟨hc1, hc2, hc3, -⟩ := hc
  constructor
  · intro h0
    subst h0
    have hlast : c.getLast hc1 ∈ c := List.getLast_mem hc1
    have : (['/'] : List Char) = (if (render rooted ups comps).length =
        if rooted = true then 1 else 0 then render rooted ups comps
        else '/' :: render rooted ups comps).reverse ++ c := h
    have h2 := congrArg List.getLast? this
    rw [List.getLast?_append_of_ne_nil _ hc1, List.getLast?_eq_getLast _ hc1] at h2
    simp at h2
    rw [← h2] at hlast
    exact hc2 hlast
  · intro h0
    subst h0
    have : (['.'] : List Char) = (if (render rooted ups comps).length =
        if rooted = true then 1 else 0 then render rooted ups comps
        else '/' :: render rooted ups comps).reverse ++ c := h
    have hlen := congrArg List.length this
    simp only [List.length_append, List.length_reverse, List.length_singleton] at hlen
    have hcpos : 0 < c.length := List.length_pos.2 hc1
    have hx : (if (render rooted ups comps).length = if rooted = true then 1 else 0 then
        render rooted ups comps else '/' :: render rooted ups comps).reverse = [] := by
      apply List.eq_nil_of_length_eq_zero
      rw [List.length_reverse]
      omega
    rw [hx, List.nil_append] at this
    exact hc3 this.symm

/-- Go's `path.Clean` never returns the empty string. -/
theorem cleanChars_ne_nil (s : List Char) : cleanChars s ≠ [] := by
  obtain ⟨rooted, ups, comps, -, h⟩ := cleaned_cleanChars s
  rw [h]
  unfold finish
  split
  · simp
  · rename_i hl
    intro h0
    apply hl
    rw [← List.length_reverse, h0]
    rfl

/-- Joining onto anything an element that is not empty gives a path that is not empty. -/
theorem join_ne_empty (a b : String) (hb : b ≠ "") : Join [a, b] ≠ "" := by
  rw [join_pair]
  intro h
  by_cases ha : a = ""
  · rw [if_pos ha, if_neg hb] at h
    exact cleanChars_ne_nil _ ((string_eq_empty_iff _).1 h)
  · rw [if_neg ha] at h
    exact cleanChars_ne_nil _ ((string_eq_empty_iff _).1 h)

end GoPath

/-! ## The download -/

namespace Chef
open GoPath

theorem DownloadCookbookAt_eq (env : Env) (w : World) (name version localDir : String) :
    DownloadCookbookAt env w name version localDir =
      (let version := if version = "" ∨ version = "latest" then "_latest" else version
       let w := w.log (Event.getVersion name version)
       match env.getVersion name version with
       | Except.error err => (some err, w)
       | Except.ok cookbook =>
         let w := w.log (Event.printed
           ("Downloading " ++ cookbook.CookbookName ++ " cookbook version " ++ cookbook.Version ++ "\n"))
         let cookbookPath := Join [localDir, cookbook.Name]
         let rr := runCalls env w (categoryCalls cookbook cookbookPath)
         match firstError rr.1 with
         | some err => (some err, rr.2)
         | none => (none, rr.2.log (Event.printed ("Cookbook downloaded to " ++ cookbookPath ++ "\n")))) := by
  rfl

/-! ### The log only grows -/

theorem mkdirChain_trace (env : Env) (ds : List String) (w : World) :
    (mkdirChain env w ds).2.trace = w.trace := by
  induction ds generalizing w with
  | nil => rfl
  | cons d ds ih =>
    simp only [mkdirChain]
    split
    · rfl
    · exact ih w
    · split
      · rfl
      · rw [ih]; rfl

theorem osMkdirAll_trace (env : Env) (w : World) (p : String) (perm : Nat) :
    (osMkdirAll env w p perm).2.trace = Event.mkdirAll p perm :: w.trace := by
  unfold osMkdirAll
  simp only
  split
  · rfl
  · rw [mkdirChain_trace]; rfl

theorem osCreate_trace (env : Env) (w : World) (p : String) :
    (osCreate env w p).2.trace = Event.create p :: w.trace := by
  unfold osCreate
  simp only
  split
  · rfl
  · split
    · rfl
    · rfl
    · split <;> rfl

theorem ioCopy_trace (env : Env) (w : World) (p : String) (body : Body) :
    (ioCopy env w p body).2.trace = Event.copy p body.data :: w.trace := by
  unfold ioCopy
  simp only
  split <;> rfl

/-- Everything `downloadCookbookFile` logs is one of its five kinds of effect. -/
theorem downloadCookbookFile_added (env : Env) (w : World) (url file : String)
    (P : Event → Prop) (h1 : P (Event.newRequest "GET" url)) (h2 : ∀ u, P (Event.doRequest u))
    (h3 : ∀ u, P (Event.closeBody u)) (h4 : P (Event.create file))
    (h5 : ∀ d, P (Event.copy file d)) :
    ∃ added, (downloadCookbookFile env w url file).2.trace = added ++ w.trace ∧
      ∀ e ∈ added, P e := by
  unfold downloadCookbookFile
  simp only
  cases hq : env.newRequest "GET" url with
  | error err => exact ⟨[Event.newRequest "GET" url], rfl, by simpa using h1⟩
  | ok request =>
    simp only
    cases hd : env.doRequest (w.log (Event.newRequest "GET" url)) request with
    | failed err =>
      exact ⟨[Event.doRequest request.url, Event.newRequest "GET" url], rfl, by simp [h1, h2]⟩
    | rejected body err =>
      exact ⟨[Event.closeBody request.url, Event.doRequest request.url,
        Event.newRequest "GET" url], rfl, by simp [h1, h2, h3]⟩
    | ok body =>
      simp only
      have hc := osCreate_trace env ((w.log (Event.newRequest "GET" url)).log
        (Event.doRequest request.url)) file
      rcases hcr : osCreate env ((w.log (Event.newRequest "GET" url)).log
        (Event.doRequest request.url)) file with ⟨ce, cw⟩
      rw [hcr] at hc
      cases ce with
      | some err =>
        refine ⟨[Event.closeBody request.url, Event.create file, Event.doRequest request.url,
          Event.newRequest "GET" url], ?_, ?_⟩
        · simp only [World.log] at hc ⊢
          rw [hc]; rfl
        · simp [h1, h2, h3, h4]
      | none =>
        simp only
        have hy := ioCopy_trace env cw file body
        rcases hyr : ioCopy env cw file body with ⟨ye, yw⟩
        rw [hyr] at hy
        have hfin : (yw.log (Event.closeBody request.url)).trace =
            [Event.closeBody request.url, Event.copy file body.data, Event.create file,
              Event.doRequest request.url, Event.newRequest "GET" url] ++ w.trace := by
          simp only [World.log] at hc hy ⊢
          rw [hy, hc]; rfl
        cases ye with
        | some err => exact ⟨_, hfin, by simp [h1, h2, h3, h4, h5]⟩
        | none => exact ⟨_, hfin, by simp [h1, h2, h3, h4, h5]⟩

theorem downloadItemsLoop_added (env : Env) (localPath : String) (P : Event → Prop)
    (h2 : ∀ u, P (Event.doRequest u)) (h3 : ∀ u, P (Event.closeBody u))
    (items : List CookbookItem) (w : World)
    (h1 : ∀ item ∈ items, P (Event.newRequest "GET" item.Url))
    (h4 : ∀ item ∈ items, P (Event.create (Join [localPath, item.Name])))
    (h5 : ∀ item ∈ items, ∀ d, P (Event.copy (Join [localPath, item.Name]) d)) :
    ∃ added, (downloadItemsLoop env localPath w items).2.trace = added ++ w.trace ∧
      ∀ e ∈ added, P e := by
  induction items generalizing w with
  | nil => exact ⟨[], rfl, by simp⟩
  | cons item rest ih =>
    simp only [downloadItemsLoop]
    obtain ⟨a1, ha1, hp1⟩ := downloadCookbookFile_added env w item.Url
      (Join [localPath, item.Name]) P (h1 item (List.mem_cons_self _ _)) h2 h3
      (h4 item (List.mem_cons_self _ _)) (h5 item (List.mem_cons_self _ _))
    rcases hr : downloadCookbookFile env w item.Url (Join [localPath, item.Name]) with ⟨fe, fw⟩
    rw [hr] at ha1
    cases fe with
    | some err => exact ⟨a1, ha1, hp1⟩
    | none =>
      simp only
      obtain ⟨a2, ha2, hp2⟩ := ih fw (fun i hi => h1 i (List.mem_cons_of_mem _ hi))
        (fun i hi => h4 i (List.mem_cons_of_mem _ hi))
        (fun i hi => h5 i (List.mem_cons_of_mem _ hi))
      refine ⟨a2 ++ a1, ?_, ?_⟩
      · rw [ha2]; simp only at ha1; rw [ha1, List.append_assoc]
      · intro e he
        rcases List.mem_append.1 he with h | h
        · exact hp2 e h
        · exact hp1 e h

theorem downloadCookbookItems_added (env : Env) (w : World) (items : List CookbookItem)
    (itemType localPath : String) (P : Event → Prop)
    (h0 : P (Event.printed ("Downloading " ++ itemType ++ "\n")))
    (hm : P (Event.mkdirAll localPath 0o755))
    (h2 : ∀ u, P (Event.doRequest u)) (h3 : ∀ u, P (Event.closeBody u))
    (h1 : ∀ item ∈ items, P (Event.newRequest "GET" item.Url))
    (h4 : ∀ item ∈ items, P (Event.create (Join [localPath, item.Name])))
    (h5 : ∀ item ∈ items, ∀ d, P (Event.copy (Join [localPath, item.Name]) d)) :
    ∃ added, (downloadCookbookItems env w items itemType localPath).2.trace = added ++ w.trace ∧
      ∀ e ∈ added, P e := by
  unfold downloadCookbookItems
  split
  · exact ⟨[], rfl, by simp⟩
  · simp only
    have hk := osMkdirAll_trace env (w.log (Event.printed ("Downloading " ++ itemType ++ "\n")))
      localPath 0o755
    rcases hr : osMkdirAll env (w.log (Event.printed ("Downloading " ++ itemType ++ "\n")))
      localPath 0o755 with ⟨me, mw⟩
    rw [hr] at hk
    simp only [World.log] at hk
    cases me with
    | some err =>
      exact ⟨[Event.mkdirAll localPath 0o755, Event.printed ("Downloading " ++ itemType ++ "\n")],
        hk, by simp [h0, hm]⟩
    | none =>
      simp only
      obtain ⟨a2, ha2, hp2⟩ := downloadItemsLoop_added env localPath P h2 h3 items mw h1 h4 h5
      refine ⟨a2 ++ [Event.mkdirAll localPath 0o755,
        Event.printed ("Downloading " ++ itemType ++ "\n")], ?_, ?_⟩
      · rw [ha2, hk]; simp
      · intro e he
        rcases List.mem_append.1 he with h | h
        · exact hp2 e h
        · simp at h; rcases h with h | h <;> subst h <;> assumption

/-! ### The directories `os.MkdirAll` needs -/

theorem slashCuts_mem_whole (s pre : List Char) : pre ++ s ∈ slashCuts pre s := by
  induction s generalizing pre with
  | nil => simp [slashCuts]
  | cons c s ih =>
    have h := ih (pre ++ [c])
    rw [List.append_assoc] at h
    simp only [slashCuts]
    split
    · exact List.mem_cons_of_mem _ h
    · exact h

theorem slashCuts_mem_cut (x y pre : List Char) : pre ++ x ∈ slashCuts pre (x ++ '/' :: y) := by
  induction x generalizing pre with
  | nil => simp [slashCuts]
  | cons c x ih =>
    have h := ih (pre ++ [c])
    rw [List.append_assoc] at h
    simp only [List.cons_append, slashCuts]
    split
    · exact List.mem_cons_of_mem _ h
    · exact h

theorem slashCuts_no_slash (c pre : List Char) (hc : '/' ∉ c) : slashCuts pre c = [pre ++ c] := by
  induction c generalizing pre with
  | nil => simp [slashCuts]
  | cons x c ih =>
    have hx : x ≠ '/' := fun h => hc (by rw [h]; exact List.mem_cons_self _ _)
    simp only [slashCuts, if_neg hx]
    rw [ih _ (fun h => hc (List.mem_cons_of_mem _ h))]
    simp

theorem slashCuts_cons (pre : List Char) (c : Char) (t : List Char) :
    slashCuts pre (c :: t) =
      if c = '/' then pre :: slashCuts (pre ++ [c]) t else slashCuts (pre ++ [c]) t := rfl

theorem slashCuts_append (x c pre : List Char) (hc : '/' ∉ c) :
    slashCuts pre (x ++ '/' :: c) = slashCuts pre x ++ [pre ++ x ++ '/' :: c] := by
  induction x generalizing pre with
  | nil =>
    rw [List.nil_append, slashCuts_cons, if_pos rfl, slashCuts_no_slash c _ hc]
    simp [slashCuts]
  | cons y x ih =>
    rw [List.cons_append, slashCuts_cons, slashCuts_cons, ih]
    split <;> simp

theorem ancestorChars_of (p : List Char) (h0 : p ≠ []) (h1 : p ≠ ['/']) (h2 : p ≠ ['.']) :
    ancestorChars p =
      if p.head? = some '/' then ['/'] :: slashCuts ['/'] p.tail
      else ['.'] :: slashCuts [] p := by
  unfold ancestorChars
  rw [if_neg h0, if_neg (by
    intro h
    rcases h with h | h
    · exact h1 h
    · exact h2 h)]

theorem mem_ancestorChars_self (p : List Char) (h : p ≠ []) : p ∈ ancestorChars p := by
  unfold ancestorChars
  rw [if_neg h]
  split
  · simp
  · split
    · rename_i hh
      obtain ⟨x, xs, rfl⟩ := List.exists_cons_of_ne_nil h
      simp at hh
      subst hh
      exact List.mem_cons_of_mem _ (slashCuts_mem_whole xs ['/'])
    · exact List.mem_cons_of_mem _ (by simpa using slashCuts_mem_whole p [])

theorem mem_ancestors_self (p : String) (h : p ≠ "") : p ∈ ancestors p := by
  unfold ancestors
  exact List.mem_map.2 ⟨p.data, mem_ancestorChars_self p.data
    (fun h0 => h ((string_eq_empty_iff p).2 h0)), rfl⟩

theorem mem_ancestorChars_append (d c : List Char) (hd : d ≠ []) :
    d ∈ ancestorChars (d ++ '/' :: c) := by
  obtain ⟨x, xs, rfl⟩ := List.exists_cons_of_ne_nil hd
  unfold ancestorChars
  rw [if_neg (by simp)]
  rw [if_neg (by
    intro h
    rcases h with h | h <;> simp at h)]
  split
  · rename_i hh
    simp at hh
    subst hh
    exact List.mem_cons_of_mem _ (slashCuts_mem_cut xs c ['/'])
  · exact List.mem_cons_of_mem _ (by simpa using slashCuts_mem_cut (x :: xs) c [])

theorem mem_ancestors_append (d c : String) (hd : d ≠ "") : d ∈ ancestors (d ++ "/" ++ c) := by
  unfold ancestors
  refine List.mem_map.2 ⟨d.data, ?_, rfl⟩
  have : (d ++ "/" ++ c).data = d.data ++ '/' :: c.data := by simp [String.data_append]
  rw [this]
  exact mem_ancestorChars_append d.data c.data (fun h0 => hd ((string_eq_empty_iff d).2 h0))

theorem ancestorChars_append (d c : List Char) (h0 : d ≠ []) (h1 : d ≠ ['/']) (h2 : d ≠ ['.'])
    (hc : '/' ∉ c) :
    ancestorChars (d ++ '/' :: c) = ancestorChars d ++ [d ++ '/' :: c] := by
  obtain ⟨x, xs, rfl⟩ := List.exists_cons_of_ne_nil h0
  rw [ancestorChars_of (x :: xs) h0 h1 h2,
    ancestorChars_of (x :: xs ++ '/' :: c) (by simp) (by simp) (by simp)]
  by_cases hx : x = '/'
  · subst hx
    rw [if_pos (by simp), if_pos (by simp)]
    simp only [List.cons_append, List.tail_cons]
    rw [slashCuts_append xs c ['/'] hc]
    simp
  · rw [if_neg (by simpa using hx), if_neg (by simpa using hx),
      slashCuts_append (x :: xs) c [] hc]
    simp

theorem ancestors_append (d c : String) (h0 : d ≠ "") (h1 : d ≠ "/") (h2 : d ≠ ".")
    (hc : '/' ∉ c.data) : ancestors (d ++ "/" ++ c) = ancestors d ++ [d ++ "/" ++ c] := by
  unfold ancestors
  have e : (d ++ "/" ++ c).data = d.data ++ '/' :: c.data := by simp [String.data_append]
  rw [e, ancestorChars_append d.data c.data
    (fun h => h0 ((string_eq_empty_iff d).2 h))
    (fun h => h1 (String.ext h)) (fun h => h2 (String.ext h)) hc]
  rw [List.map_append, ← e]
  rfl

/-- The cookbook directory is among the directories `os.MkdirAll` ensures for any of its
category subdirectories. -/
theorem cookbookPath_mem_ancestors (a b c : String) (hc : Normal c.data)
    (hne : Join [a, b] ≠ "") : Join [a, b] ∈ ancestors (Join [Join [a, b], c]) := by
  rcases join_pair_cleaned a b with h | h
  · exact absurd h hne
  · rcases cleaned_join_cases (Join [a, b]) c h hc with ⟨h1, h2⟩ | ⟨h1, h2⟩ | ⟨h1, h2⟩
    · rw [h2, h1]
      unfold ancestors ancestorChars
      have hc1 : c.data ≠ [] := hc.1
      have hc2 : ¬ (c.data = ['/'] ∨ c.data = ['.']) := by
        intro h
        rcases h with h | h
        · exact hc.2.1 (by rw [h]; simp)
        · exact hc.2.2.1 h
      have hc3 : ¬ c.data.head? = some '/' := by
        intro h
        obtain ⟨x, xs, hx⟩ := List.exists_cons_of_ne_nil hc1
        rw [hx] at h
        simp at h
        exact hc.2.1 (by rw [hx, h]; exact List.mem_cons_self _ _)
      rw [if_neg hc1, if_neg hc2, if_neg hc3]
      simp
    · rw [h2, h1]
      unfold ancestors ancestorChars
      have e : ("/" ++ c).data = '/' :: c.data := by simp [String.data_append]
      rw [e, if_neg (by simp), if_neg (by
        intro h
        rcases h with h | h
        · simp at h; exact hc.1 h
        · simp at h), if_pos (by simp)]
      simp
    · rw [h2]
      exact mem_ancestors_append _ _ h1

/-! ### What the operations do to the filesystem -/

theorem put_fs (w : World) (p : String) (n : Node) (q : String) :
    (w.put p n).fs q = if q = p then some n else w.fs q := rfl

theorem log_fs (w : World) (e : Event) : (w.log e).fs = w.fs := rfl

/-- The chain `mkdirChain` only turns missing paths of the chain into directories. -/
theorem mkdirChain_fs (env : Env) (ds : List String) (w : World) (p : String) :
    (mkdirChain env w ds).2.fs p = w.fs p ∨
      (w.fs p = none ∧ (mkdirChain env w ds).2.fs p = some Node.dir ∧ p ∈ ds) := by
  induction ds generalizing w with
  | nil => exact Or.inl rfl
  | cons d ds ih =>
    simp only [mkdirChain]
    split
    · exact Or.inl rfl
    · rcases ih w with h | ⟨h1, h2, h3⟩
      · exact Or.inl h
      · exact Or.inr ⟨h1, h2, List.mem_cons_of_mem _ h3⟩
    · rename_i hnone
      split
      · exact Or.inl rfl
      · rcases ih (w.put d Node.dir) with h | ⟨h1, h2, h3⟩
        · rw [h, put_fs]
          by_cases hp : p = d
          · subst hp
            right
            rw [put_fs] at h
            simp only [if_true] at h
            exact ⟨hnone, by simp, List.mem_cons_self _ _⟩
          · left; rw [if_neg hp]
        · rw [put_fs] at h1
          by_cases hp : p = d
          · rw [if_pos hp] at h1; simp at h1
          · rw [if_neg hp] at h1
            exact Or.inr ⟨h1, h2, List.mem_cons_of_mem _ h3⟩

/-- A chain that succeeds leaves every path of the chain a directory. -/
theorem mkdirChain_ok (env : Env) (ds : List String) (w : World)
    (h : (mkdirChain env w ds).1 = none) :
    ∀ d ∈ ds, (mkdirChain env w ds).2.fs d = some Node.dir := by
  induction ds generalizing w with
  | nil => intro d hd; simp at hd
  | cons d ds ih =>
    intro x hx
    cases hf : w.fs d with
    | some n =>
      cases n with
      | file c => simp [mkdirChain, hf] at h
      | dir =>
        simp only [mkdirChain, hf] at h ⊢
        rcases List.mem_cons.1 hx with hxd | hxd
        · subst hxd
          rcases mkdirChain_fs env ds w x with h1 | ⟨h1, -, -⟩
          · rw [h1]; exact hf
          · rw [hf] at h1; simp at h1
        · exact ih w h x hxd
    | none =>
      cases hden : env.mkdirDenied d with
      | some err => simp [mkdirChain, hf, hden] at h
      | none =>
        simp only [mkdirChain, hf, hden] at h ⊢
        rcases List.mem_cons.1 hx with hxd | hxd
        · subst hxd
          rcases mkdirChain_fs env ds (w.put x Node.dir) x with h1 | ⟨h1, -, -⟩
          · rw [h1, put_fs]; simp
          · rw [put_fs] at h1; simp at h1
        · exact ih (w.put d Node.dir) h x hxd

theorem osMkdirAll_fs (env : Env) (w : World) (path : String) (perm : Nat) (p : String) :
    (osMkdirAll env w path perm).2.fs p = w.fs p ∨
      (w.fs p = none ∧ (osMkdirAll env w path perm).2.fs p = some Node.dir ∧
        p ∈ ancestors path) := by
  unfold osMkdirAll
  simp only
  split
  · exact Or.inl rfl
  · exact mkdirChain_fs env (ancestors path) (w.log (Event.mkdirAll path perm)) p

theorem osMkdirAll_ok (env : Env) (w : World) (path : String) (perm : Nat)
    (h : (osMkdirAll env w path perm).1 = none) :
    path ≠ "" ∧ ∀ d ∈ ancestors path, (osMkdirAll env w path perm).2.fs d = some Node.dir := by
  unfold osMkdirAll at h ⊢
  simp only at h ⊢
  split at h
  · simp at h
  · rename_i hne
    rw [if_neg hne]
    exact ⟨hne, mkdirChain_ok env (ancestors path) _ h⟩

theorem osCreate_ok_iff (env : Env) (w : World) (name : String) :
    (osCreate env w name).1 = none ↔
      (w.fs name ≠ some Node.dir ∧ w.fs (parentDir name) = some Node.dir ∧
        env.createDenied name = none) := by
  unfold osCreate
  simp only [log_fs]
  cases hf : w.fs name with
  | some n =>
    cases n with
    | dir => simp
    | file c =>
      cases hp : w.fs (parentDir name) with
      | none => simp
      | some m =>
        cases m with
        | file c2 => simp
        | dir => cases hden : env.createDenied name <;> simp
  | none =>
    cases hp : w.fs (parentDir name) with
    | none => simp
    | some m =>
      cases m with
      | file c2 => simp
      | dir => cases hden : env.createDenied name <;> simp

theorem osCreate_fs_ok (env : Env) (w : World) (name : String)
    (h : (osCreate env w name).1 = none) (q : String) :
    (osCreate env w name).2.fs q = if q = name then some (Node.file "") else w.fs q := by
  obtain ⟨h1, h2, h3⟩ := (osCreate_ok_iff env w name).1 h
  unfold osCreate
  simp only [log_fs]
  cases hf : w.fs name with
  | some n =>
    cases n with
    | dir => exact absurd hf h1
    | file c => simp [h2, h3, put_fs, log_fs]
  | none => simp [h2, h3, put_fs, log_fs]

theorem osCreate_fs_err (env : Env) (w : World) (name : String)
    (h : (osCreate env w name).1 ≠ none) : (osCreate env w name).2.fs = w.fs := by
  have h' := mt (osCreate_ok_iff env w name).2 h
  unfold osCreate
  simp only [log_fs]
  cases hf : w.fs name with
  | some n =>
    cases n with
    | dir => rfl
    | file c =>
      simp only
      cases hp : w.fs (parentDir name) with
      | none => rfl
      | some m =>
        cases m with
        | file c2 => rfl
        | dir =>
          cases hden : env.createDenied name with
          | some err => rfl
          | none => exact absurd ⟨by rw [hf]; simp, hp, hden⟩ h'
  | none =>
    simp only
    cases hp : w.fs (parentDir name) with
    | none => rfl
    | some m =>
      cases m with
      | file c2 => rfl
      | dir =>
        cases hden : env.createDenied name with
        | some err => rfl
        | none => exact absurd ⟨by rw [hf]; simp, hp, hden⟩ h'

theorem ioCopy_ok_iff (env : Env) (w : World) (name : String) (body : Body) :
    (ioCopy env w name body).1 = none ↔
      (env.writeFault name body.data = none ∧ body.readErr = none) := by
  unfold ioCopy
  simp only
  cases hwf : env.writeFault name body.data with
  | some x => simp
  | none => simp

theorem ioCopy_fs (env : Env) (w : World) (name : String) (body : Body) :
    ∃ x, (∀ q, (ioCopy env w name body).2.fs q =
        if q = name then some (Node.file x) else w.fs q) ∧
      ((ioCopy env w name body).1 = none → x = body.data) := by
  unfold ioCopy
  simp only
  cases hwf : env.writeFault name body.data with
  | some x =>
    obtain ⟨n, err⟩ := x
    exact ⟨⟨body.data.data.take n⟩, fun q => by simp [put_fs, log_fs], by simp⟩
  | none => exact ⟨body.data, fun q => by simp [put_fs, log_fs], fun _ => rfl⟩

/-- The effect of `downloadCookbookFile` on the filesystem, case by case: nothing, or a
file at the destination, which holds the bytes of the response body when the transfer
returned no error; the latter needs the conditions `Transfers`. -/
theorem downloadCookbookFile_fs (env : Env) (w : World) (url file : String) :
    ((downloadCookbookFile env w url file).1 ≠ none ∧
        (downloadCookbookFile env w url file).2.fs = w.fs) ∨
      (w.fs file ≠ some Node.dir ∧ w.fs (parentDir file) = some Node.dir ∧
        ∃ x, (∀ q, (downloadCookbookFile env w url file).2.fs q =
            if q = file then some (Node.file x) else w.fs q) ∧
          ((downloadCookbookFile env w url file).1 = none →
            ∃ request body, Transfers env w url file request body ∧ x = body.data)) := by
  unfold downloadCookbookFile Transfers
  simp only
  cases hq : env.newRequest "GET" url with
  | error err => exact Or.inl ⟨by simp, rfl⟩
  | ok request =>
    simp only
    cases hd : env.doRequest (w.log (Event.newRequest "GET" url)) request with
    | failed err => exact Or.inl ⟨by simp, rfl⟩
    | rejected body err => exact Or.inl ⟨by simp, rfl⟩
    | ok body =>
      simp only
      have hiff := osCreate_ok_iff env ((w.log (Event.newRequest "GET" url)).log
        (Event.doRequest request.url)) file
      have hok := osCreate_fs_ok env ((w.log (Event.newRequest "GET" url)).log
        (Event.doRequest request.url)) file
      have herr := osCreate_fs_err env ((w.log (Event.newRequest "GET" url)).log
        (Event.doRequest request.url)) file
      rcases hcr : osCreate env ((w.log (Event.newRequest "GET" url)).log
        (Event.doRequest request.url)) file with ⟨ce, cw⟩
      rw [hcr] at hiff hok herr
      simp only [log_fs] at hiff hok herr
      cases ce with
      | some err => exact Or.inl ⟨by simp, herr (by simp)⟩
      | none =>
        simp only
        obtain ⟨h1, h2, h3⟩ := hiff.1 rfl
        have hok' := hok rfl
        obtain ⟨x, hx1, hx2⟩ := ioCopy_fs env cw file body
        have hyiff := ioCopy_ok_iff env cw file body
        rcases hyr : ioCopy env cw file body with ⟨ye, yw⟩
        rw [hyr] at hx1 hx2 hyiff
        simp only at hx1 hx2 hyiff
        right
        refine ⟨h1, h2, x, ?_, ?_⟩
        · intro q
          cases ye with
          | some err =>
            simp only [log_fs]
            rw [hx1 q, hok' q]
            by_cases hqf : q = file <;> simp [hqf]
          | none =>
            simp only [log_fs]
            rw [hx1 q, hok' q]
            by_cases hqf : q = file <;> simp [hqf]
        · cases ye with
          | some err => simp
          | none =>
            intro _
            obtain ⟨hw1, hw2⟩ := hyiff.1 rfl
            exact ⟨request, body, ⟨rfl, hd, hw2, hw1, h1, h2, h3⟩, hx2 rfl⟩

/-- The function `downloadCookbookFile` touches no path but its destination file. -/
theorem downloadCookbookFile_fs_ne (env : Env) (w : World) (url file p : String)
    (hp : p ≠ file) : (downloadCookbookFile env w url file).2.fs p = w.fs p := by
  rcases downloadCookbookFile_fs env w url file with ⟨-, h⟩ | ⟨-, -, x, h, -⟩
  · rw [h]
  · rw [h p, if_neg hp]

/-- A transfer that returns no error met the conditions `Transfers` and left the bytes of
the response body in the destination file. -/
theorem downloadCookbookFile_success (env : Env) (w : World) (url file : String)
    (h : (downloadCookbookFile env w url file).1 = none) :
    ∃ request body, Transfers env w url file request body ∧
      ∀ q, (downloadCookbookFile env w url file).2.fs q =
        if q = file then some (Node.file body.data) else w.fs q := by
  rcases downloadCookbookFile_fs env w url file with ⟨h1, -⟩ | ⟨-, -, x, h1, h2⟩
  · exact absurd h h1
  · obtain ⟨request, body, ht, hx⟩ := h2 h
    subst hx
    exact ⟨request, body, ht, h1⟩

/-- Under the conditions `Transfers` the transfer returns no error and leaves the bytes of
the response body in the destination file. -/
theorem downloadCookbookFile_of_transfers (env : Env) (w : World) (url file : String)
    (request : Request) (body : Body) (h : Transfers env w url file request body) :
    (downloadCookbookFile env w url file).1 = none ∧
      ∀ q, (downloadCookbookFile env w url file).2.fs q =
        if q = file then some (Node.file body.data) else w.fs q := by
  obtain ⟨hq, hd, hre, hwf, hnd, hpar, hden⟩ := h
  have hc : (osCreate env ((w.log (Event.newRequest "GET" url)).log
      (Event.doRequest request.url)) file).1 = none :=
    (osCreate_ok_iff env _ file).2 ⟨hnd, hpar, hden⟩
  have hcf := osCreate_fs_ok env _ file hc
  have hres : (downloadCookbookFile env w url file).1 = none := by
    unfold downloadCookbookFile
    simp only
    rw [hq]
    simp only
    rw [hd]
    simp only
    rcases hcr : osCreate env ((w.log (Event.newRequest "GET" url)).log
      (Event.doRequest request.url)) file with ⟨ce, cw⟩
    rw [hcr] at hc
    simp only at hc
    subst hc
    simp only
    have hy := (ioCopy_ok_iff env cw file body).2 ⟨hwf, hre⟩
    rcases hyr : ioCopy env cw file body with ⟨ye, yw⟩
    rw [hyr] at hy
    simp only at hy
    subst hy
    rfl
  refine ⟨hres, ?_⟩
  obtain ⟨request', body', ht, hfs⟩ := downloadCookbookFile_success env w url file hres
  obtain ⟨hq', hd', -⟩ := ht
  rw [hq] at hq'
  cases hq'
  rw [hd] at hd'
  cases hd'
  exact hfs

/-! ### Version token and manifest fetch (C1, C2) -/

theorem filterMap_added {β : Type} (f : Event → Option β) (added old : List Event)
    (h : ∀ e ∈ added, f e = none) : (added ++ old).filterMap f = old.filterMap f := by
  rw [List.filterMap_append]
  have : added.filterMap f = [] := by
    rw [List.filterMap_eq_nil_iff]
    exact h
  rw [this]; rfl

/-- A category call asks for no manifest. -/
theorem askedVersions_downloadCookbookItems (env : Env) (w : World) (items : List CookbookItem)
    (itemType localPath : String) :
    askedVersions (downloadCookbookItems env w items itemType localPath).2.trace =
      askedVersions w.trace := by
  obtain ⟨added, h1, h2⟩ := downloadCookbookItems_added env w items itemType localPath
    (fun e => (match e with
      | Event.getVersion name version => some (name, version)
      | _ => none) = none)
    rfl rfl (fun _ => rfl) (fun _ => rfl) (fun _ _ => rfl) (fun _ _ => rfl)
    (fun _ _ _ => rfl)
  rw [h1]
  exact filterMap_added _ added w.trace h2

theorem askedVersions_runCalls (env : Env) (calls : List (List CookbookItem × String × String))
    (w : World) : askedVersions (runCalls env w calls).2.trace = askedVersions w.trace := by
  induction calls generalizing w with
  | nil => rfl
  | cons call rest ih =>
    simp only [runCalls]
    rw [ih, askedVersions_downloadCookbookItems]

/-- C1: for every cookbook name and version string, `DownloadCookbookAt` asks `GetVersion`
exactly once, for the token `_latest` when the version is empty or `latest`, and for the
version itself, unchanged, otherwise. -/
theorem C1_version_token (env : Env) (w : World) (name version localDir : String) :
    askedVersions (DownloadCookbookAt env w name version localDir).2.trace =
      (name, if version = "" ∨ version = "latest" then "_latest" else version) ::
        askedVersions w.trace := by
  rw [DownloadCookbookAt_eq]
  simp only
  cases env.getVersion name (if version = "" ∨ version = "latest" then "_latest" else version) with
  | error err => rfl
  | ok cookbook =>
    simp only
    split
    · rw [askedVersions_runCalls]; rfl
    · show askedVersions (_ :: _) = _
      simp only [askedVersions, List.filterMap_cons]
      have := askedVersions_runCalls env
        (categoryCalls cookbook (Join [localDir, cookbook.Name]))
        ((w.log (Event.getVersion name
          (if version = "" ∨ version = "latest" then "_latest" else version))).log
          (Event.printed ("Downloading " ++ cookbook.CookbookName ++ " cookbook version " ++
            cookbook.Version ++ "\n")))
      simp only [askedVersions] at this
      rw [this]
      rfl

theorem DownloadCookbookAt_fetch_error (env : Env) (w : World) (name version localDir : String)
    (e : Error)
    (h : env.getVersion name
      (if version = "" ∨ version = "latest" then "_latest" else version) = Except.error e) :
    DownloadCookbookAt env w name version localDir =
      (some e, w.log (Event.getVersion name
        (if version = "" ∨ version = "latest" then "_latest" else version))) := by
  unfold DownloadCookbookAt
  simp only
  rw [h]

/-- C2: when the manifest fetch fails with `e`, `DownloadCookbookAt` returns exactly `e`,
has done nothing but the fetch (no request for a file, no directory creation) and leaves
the filesystem as it was. -/
theorem C2_manifest_failure (env : Env) (w : World) (name version localDir : String)
    (e : Error)
    (h : env.getVersion name
      (if version = "" ∨ version = "latest" then "_latest" else version) = Except.error e) :
    (DownloadCookbookAt env w name version localDir).1 = some e ∧
      (DownloadCookbookAt env w name version localDir).2.fs = w.fs ∧
      (DownloadCookbookAt env w name version localDir).2.trace =
        Event.getVersion name
          (if version = "" ∨ version = "latest" then "_latest" else version) :: w.trace ∧
      requestedUrls (DownloadCookbookAt env w name version localDir).2.trace =
        requestedUrls w.trace ∧
      mkdirTargets (DownloadCookbookAt env w name version localDir).2.trace =
        mkdirTargets w.trace := by
  rw [DownloadCookbookAt_fetch_error env w name version localDir e h]
  exact ⟨rfl, rfl, rfl, rfl, rfl⟩

/-! ### Closing the response body, and the error returned (C8, C9) -/

/-- C8: when building the request fails, `downloadCookbookFile` returns that error
unmodified and executes no request; when the transport returned a response, its body is
closed exactly once, as the last effect before the function returns, whatever happened
after the response arrived (error status, file creation error, copy error, success). -/
theorem C8_response_body_closed (env : Env) (w : World) (url file : String) :
    (∀ err, env.newRequest "GET" url = Except.error err →
      downloadCookbookFile env w url file = (some err, w.log (Event.newRequest "GET" url)) ∧
      requestedUrls (downloadCookbookFile env w url file).2.trace = requestedUrls w.trace) ∧
    (∀ request body, env.newRequest "GET" url = Except.ok request →
      (env.doRequest (w.log (Event.newRequest "GET" url)) request = DoResult.ok body ∨
        ∃ err, env.doRequest (w.log (Event.newRequest "GET" url)) request =
          DoResult.rejected body err) →
      ∃ mid, (downloadCookbookFile env w url file).2.trace =
          Event.closeBody request.url :: mid ++
            Event.doRequest request.url :: Event.newRequest "GET" url :: w.trace ∧
        ∀ e ∈ mid, e = Event.create file ∨ e = Event.copy file body.data) := by
  constructor
  · intro err h
    have hr : downloadCookbookFile env w url file =
        (some err, w.log (Event.newRequest "GET" url)) := by
      unfold downloadCookbookFile
      simp only
      rw [h]
    rw [hr]
    exact ⟨rfl, rfl⟩
  · intro request body hq hd
    unfold downloadCookbookFile
    simp only
    rw [hq]
    simp only
    rcases hd with hd | ⟨err, hd⟩
    · rw [hd]
      simp only
      have hc := osCreate_trace env ((w.log (Event.newRequest "GET" url)).log
        (Event.doRequest request.url)) file
      rcases hcr : osCreate env ((w.log (Event.newRequest "GET" url)).log
        (Event.doRequest request.url)) file with ⟨ce, cw⟩
      rw [hcr] at hc
      simp only [World.log] at hc
      cases ce with
      | some err =>
        refine ⟨[Event.create file], ?_, by simp⟩
        simp only [World.log]
        rw [hc]; rfl
      | none =>
        simp only
        have hy := ioCopy_trace env cw file body
        rcases hyr : ioCopy env cw file body with ⟨ye, yw⟩
        rw [hyr] at hy
        simp only at hy
        have hfin : (yw.log (Event.closeBody request.url)).trace =
            Event.closeBody request.url :: [Event.copy file body.data, Event.create file] ++
              Event.doRequest request.url :: Event.newRequest "GET" url :: w.trace := by
          simp only [World.log]
          rw [hy, hc]; rfl
        cases ye with
        | some err => exact ⟨_, hfin, by simp⟩
        | none => exact ⟨_, hfin, by simp⟩
    · rw [hd]
      exact ⟨[], rfl, by simp⟩

theorem firstError_none_iff (l : List (Option Error)) :
    firstError l = none ↔ ∀ e ∈ l, e = none := by
  induction l with
  | nil => simp [firstError]
  | cons x l ih =>
    cases x with
    | none => simp [firstError, ih]
    | some err => simp [firstError]

theorem firstError_some_iff (l : List (Option Error)) (err : Error) :
    firstError l = some err ↔
      ∃ i : Nat, l[i]? = some (some err) ∧ ∀ j : Nat, j < i → l[j]? = some none := by
  induction l with
  | nil => simp [firstError]
  | cons x l ih =>
    cases x with
    | none =>
      simp only [firstError]
      rw [ih]
      constructor
      · rintro ⟨i, h1, h2⟩
        refine ⟨i + 1, by simpa using h1, ?_⟩
        intro j hj
        cases j with
        | zero => simp
        | succ j => simpa using h2 j (by omega)
      · rintro ⟨i, h1, h2⟩
        cases i with
        | zero => simp at h1
        | succ i =>
          refine ⟨i, by simpa using h1, ?_⟩
          intro j hj
          simpa using h2 (j + 1) (by omega)
    | some e =>
      simp only [firstError]
      constructor
      · intro h
        refine ⟨0, by simpa using h, ?_⟩
        intro j hj
        omega
      · rintro ⟨i, h1, h2⟩
        cases i with
        | zero => simpa using h1
        | succ i =>
          have := h2 0 (by omega)
          simp at this

theorem length_runCalls (env : Env) (calls : List (List CookbookItem × String × String))
    (w : World) : (runCalls env w calls).1.length = calls.length := by
  induction calls generalizing w with
  | nil => rfl
  | cons call rest ih => simp only [runCalls, List.length_cons, ih]

/-- The result of `DownloadCookbookAt` after a successful fetch, in terms of its nine
category calls. -/
theorem DownloadCookbookAt_ok (env : Env) (w : World) (name version localDir : String)
    (cookbook : Cookbook)
    (h : env.getVersion name
      (if version = "" ∨ version = "latest" then "_latest" else version) = Except.ok cookbook) :
    DownloadCookbookAt env w name version localDir =
      match firstError (categoryRuns env w name version localDir cookbook).1 with
      | some err => (some err, (categoryRuns env w name version localDir cookbook).2)
      | none => (none, (categoryRuns env w name version localDir cookbook).2.log
          (Event.printed ("Cookbook downloaded to " ++ Join [localDir, cookbook.Name] ++ "\n"))) := by
  rw [DownloadCookbookAt_eq]
  simp only
  rw [h]
  rfl

/-- C9: when the manifest fetch succeeds, `DownloadCookbookAt` returns no error exactly
when none of the nine category downloads returned one, and otherwise returns, as it is,
the error of the earliest category in the fixed order that returned one, whatever the
later categories returned. -/
theorem C9_earliest_category_error (env : Env) (w : World) (name version localDir : String)
    (cookbook : Cookbook)
    (h : env.getVersion name
      (if version = "" ∨ version = "latest" then "_latest" else version) = Except.ok cookbook) :
    (categoryRuns env w name version localDir cookbook).1.length = 9 ∧
    ((DownloadCookbookAt env w name version localDir).1 = none ↔
      ∀ e ∈ (categoryRuns env w name version localDir cookbook).1, e = none) ∧
    ∀ err, (DownloadCookbookAt env w name version localDir).1 = some err ↔
      ∃ i : Nat, (categoryRuns env w name version localDir cookbook).1[i]? = some (some err) ∧
        ∀ j : Nat, j < i →
          (categoryRuns env w name version localDir cookbook).1[j]? = some none := by
  rw [DownloadCookbookAt_ok env w name version localDir cookbook h]
  refine ⟨by unfold categoryRuns; rw [length_runCalls]; rfl, ?_, ?_⟩
  · rw [← firstError_none_iff]
    split
    · rename_i err he; simp [he]
    · rename_i he; simp [he]
  · intro err
    rw [← firstError_some_iff]
    split
    · rename_i err' he; simp [he]
    · rename_i he; simp [he]

/-! ### Empty categories, and categories after a failure (C4, C6) -/

theorem downloadCookbookItems_nil (env : Env) (w : World) (itemType localPath : String) :
    downloadCookbookItems env w [] itemType localPath = (none, w) := rfl

theorem mkdirTargets_downloadItemsLoop (env : Env) (localPath : String)
    (items : List CookbookItem) (w : World) :
    mkdirTargets (downloadItemsLoop env localPath w items).2.trace = mkdirTargets w.trace := by
  obtain ⟨added, h1, h2⟩ := downloadItemsLoop_added env localPath
    (fun e => (match e with
      | Event.mkdirAll path _ => some path
      | _ => none) = none)
    (fun _ => rfl) (fun _ => rfl) items w (fun _ _ => rfl) (fun _ _ => rfl) (fun _ _ _ => rfl)
  rw [h1]
  exact filterMap_added _ added w.trace h2

/-- A category call asks `os.MkdirAll` for its destination when it has items, and for
nothing otherwise. -/
theorem mkdirTargets_downloadCookbookItems (env : Env) (w : World) (items : List CookbookItem)
    (itemType localPath : String) :
    mkdirTargets (downloadCookbookItems env w items itemType localPath).2.trace =
      (if items = [] then [] else [localPath]) ++ mkdirTargets w.trace := by
  unfold downloadCookbookItems
  by_cases h : items = []
  · subst h; rfl
  · have hl : ¬ items.length = 0 := fun h0 => h (List.length_eq_zero.1 h0)
    rw [if_neg hl, if_neg h]
    simp only
    have hk := osMkdirAll_trace env (w.log (Event.printed ("Downloading " ++ itemType ++ "\n")))
      localPath 0o755
    rcases hr : osMkdirAll env (w.log (Event.printed ("Downloading " ++ itemType ++ "\n")))
      localPath 0o755 with ⟨me, mw⟩
    rw [hr] at hk
    simp only [World.log] at hk
    cases me with
    | some err =>
      simp only
      rw [hk]
      rfl
    | none =>
      simp only
      rw [mkdirTargets_downloadItemsLoop, hk]
      rfl

theorem mkdirTargets_runCalls (env : Env) (calls : List (List CookbookItem × String × String))
    (w : World) :
    mkdirTargets (runCalls env w calls).2.trace = attempted calls ++ mkdirTargets w.trace := by
  induction calls generalizing w with
  | nil => rfl
  | cons call rest ih =>
    simp only [runCalls]
    rw [ih, mkdirTargets_downloadCookbookItems]
    unfold attempted
    by_cases h : call.1 = []
    · simp [h, List.filter_cons]
    · simp [h, List.filter_cons]

theorem runCalls_all_nil (env : Env) (calls : List (List CookbookItem × String × String))
    (w : World) (h : ∀ call ∈ calls, call.1 = []) :
    runCalls env w calls = (calls.map fun _ => none, w) := by
  induction calls generalizing w with
  | nil => rfl
  | cons call rest ih =>
    have h0 : call.1 = [] := h call (List.mem_cons_self _ _)
    simp only [runCalls, List.map_cons]
    rw [h0, downloadCookbookItems_nil]
    simp only
    rw [ih w (fun c hc => h c (List.mem_cons_of_mem _ hc))]

theorem mkdirTargets_DownloadCookbookAt (env : Env) (w : World)
    (name version localDir : String) (cookbook : Cookbook)
    (h : env.getVersion name
      (if version = "" ∨ version = "latest" then "_latest" else version) = Except.ok cookbook) :
    mkdirTargets (DownloadCookbookAt env w name version localDir).2.trace =
      attempted (categoryCalls cookbook (Join [localDir, cookbook.Name])) ++
        mkdirTargets w.trace := by
  rw [DownloadCookbookAt_ok env w name version localDir cookbook h]
  have hm := mkdirTargets_runCalls env (categoryCalls cookbook (Join [localDir, cookbook.Name]))
    (startWorld w name version cookbook)
  have hs : mkdirTargets (startWorld w name version cookbook).trace = mkdirTargets w.trace := rfl
  rw [hs] at hm
  split
  · exact hm
  · show mkdirTargets (_ :: _) = _
    exact hm

theorem runCalls_filter (env : Env) (calls : List (List CookbookItem × String × String))
    (w : World) :
    (runCalls env w calls).2 =
      (runCalls env w (calls.filter fun call => decide (call.1 ≠ []))).2 := by
  induction calls generalizing w with
  | nil => rfl
  | cons call rest ih =>
    by_cases h : call.1 = []
    · have hf : (call :: rest).filter (fun call => decide (call.1 ≠ [])) =
          rest.filter (fun call => decide (call.1 ≠ [])) := by
        simp [List.filter_cons, h]
      rw [hf, ← ih]
      simp only [runCalls]
      rw [h, downloadCookbookItems_nil]
    · have hf : (call :: rest).filter (fun call => decide (call.1 ≠ [])) =
          call :: rest.filter (fun call => decide (call.1 ≠ [])) := by
        simp [List.filter_cons, h]
      rw [hf]
      simp only [runCalls]
      exact ih _

/-- C4: `downloadCookbookItems` on an empty list returns no error and leaves the world
untouched (no directory, no request, no file, no output); hence in `DownloadCookbookAt` the
categories without items contribute nothing (the category calls leave the world that the
calls of the categories with items alone leave), `os.MkdirAll` is called exactly for the
destinations of the categories that have items, whatever the other categories contain, and
a manifest whose nine categories are all empty downloads without error and leaves the
filesystem as it was. -/
theorem C4_empty_category_is_inert (env : Env) (w : World) (name version localDir : String) :
    (∀ itemType localPath, downloadCookbookItems env w [] itemType localPath = (none, w)) ∧
    ∀ cookbook, env.getVersion name
        (if version = "" ∨ version = "latest" then "_latest" else version) =
          Except.ok cookbook →
      (categoryRuns env w name version localDir cookbook).2 =
        (runCalls env (startWorld w name version cookbook)
          ((categoryCalls cookbook (Join [localDir, cookbook.Name])).filter
            fun call => decide (call.1 ≠ []))).2 ∧
      mkdirTargets (DownloadCookbookAt env w name version localDir).2.trace =
        attempted (categoryCalls cookbook (Join [localDir, cookbook.Name])) ++
          mkdirTargets w.trace ∧
      ((∀ call ∈ categoryCalls cookbook (Join [localDir, cookbook.Name]), call.1 = []) →
        (DownloadCookbookAt env w name version localDir).1 = none ∧
        (DownloadCookbookAt env w name version localDir).2.fs = w.fs ∧
        mkdirTargets (DownloadCookbookAt env w name version localDir).2.trace =
          mkdirTargets w.trace ∧
        requestedUrls (DownloadCookbookAt env w name version localDir).2.trace =
          requestedUrls w.trace) := by
  refine ⟨fun _ _ => rfl, ?_⟩
  intro cookbook h
  refine ⟨runCalls_filter env _ _,
    mkdirTargets_DownloadCookbookAt env w name version localDir cookbook h, ?_⟩
  intro hall
  rw [DownloadCookbookAt_ok env w name version localDir cookbook h]
  unfold categoryRuns
  rw [runCalls_all_nil env _ _ hall]
  have hf : firstError (List.map (fun _ => (none : Option Error))
      (categoryCalls cookbook (Join [localDir, cookbook.Name]))) = none := rfl
  rw [hf]
  exact ⟨rfl, rfl, rfl, rfl⟩

theorem runCalls_trace (env : Env) (calls : List (List CookbookItem × String × String))
    (w : World) : ∃ added, (runCalls env w calls).2.trace = added ++ w.trace := by
  induction calls generalizing w with
  | nil => exact ⟨[], rfl⟩
  | cons call rest ih =>
    simp only [runCalls]
    obtain ⟨a1, h1, -⟩ := downloadCookbookItems_added env w call.1 call.2.1 call.2.2
      (fun _ => True) trivial trivial (fun _ => trivial) (fun _ => trivial)
      (fun _ _ => trivial) (fun _ _ => trivial) (fun _ _ _ => trivial)
    obtain ⟨a2, h2⟩ := ih (downloadCookbookItems env w call.1 call.2.1 call.2.2).2
    exact ⟨a2 ++ a1, by rw [h2, h1, List.append_assoc]⟩

/-- What a call of `DownloadCookbookAt` logs comes on top of what was logged before. -/
theorem DownloadCookbookAt_trace (env : Env) (w : World) (name version localDir : String) :
    ∃ added, (DownloadCookbookAt env w name version localDir).2.trace = added ++ w.trace := by
  cases hfetch : env.getVersion name
      (if version = "" ∨ version = "latest" then "_latest" else version) with
  | error err =>
    rw [DownloadCookbookAt_fetch_error env w name version localDir err hfetch]
    exact ⟨[_], rfl⟩
  | ok cookbook =>
    rw [DownloadCookbookAt_ok env w name version localDir cookbook hfetch]
    obtain ⟨a, ha⟩ := runCalls_trace env
      (categoryCalls cookbook (Join [localDir, cookbook.Name]))
      (startWorld w name version cookbook)
    unfold categoryRuns
    split
    · refine ⟨a ++ [Event.printed ("Downloading " ++ cookbook.CookbookName ++
        " cookbook version " ++ cookbook.Version ++ "\n"),
        Event.getVersion name
          (if version = "" ∨ version = "latest" then "_latest" else version)], ?_⟩
      simp only
      rw [ha]
      simp [startWorld, World.log]
    · refine ⟨Event.printed ("Cookbook downloaded to " ++ Join [localDir, cookbook.Name] ++
        "\n") :: (a ++ [Event.printed ("Downloading " ++ cookbook.CookbookName ++
        " cookbook version " ++ cookbook.Version ++ "\n"),
        Event.getVersion name
          (if version = "" ∨ version = "latest" then "_latest" else version)]), ?_⟩
      simp only [World.log]
      rw [ha]
      simp [startWorld, World.log]

/-- C6 (amended): `DownloadCookbookAt` does not stop at a failing category.  Whatever the
categories returned, among them the ones before it, every category that has items is
attempted during the call: the calls of `os.MkdirAll` the call makes are exactly those on
the destinations of the categories that have items, in the fixed order. -/
theorem C6_every_category_attempted (env : Env) (w : World) (name version localDir : String)
    (cookbook : Cookbook)
    (h : env.getVersion name
      (if version = "" ∨ version = "latest" then "_latest" else version) = Except.ok cookbook)
    (call : List CookbookItem × String × String)
    (hcall : call ∈ categoryCalls cookbook (Join [localDir, cookbook.Name]))
    (hitems : call.1 ≠ []) :
    ∃ added, (DownloadCookbookAt env w name version localDir).2.trace = added ++ w.trace ∧
      mkdirTargets added = attempted (categoryCalls cookbook (Join [localDir, cookbook.Name])) ∧
      call.2.2 ∈ mkdirTargets added := by
  obtain ⟨added, hadd⟩ := DownloadCookbookAt_trace env w name version localDir
  have hm := mkdirTargets_DownloadCookbookAt env w name version localDir cookbook h
  rw [hadd] at hm
  have hm2 : mkdirTargets added ++ mkdirTargets w.trace =
      attempted (categoryCalls cookbook (Join [localDir, cookbook.Name])) ++
        mkdirTargets w.trace := by
    rw [← hm]
    unfold mkdirTargets
    rw [List.filterMap_append]
  have hm3 := List.append_cancel_right hm2
  refine ⟨added, hadd, hm3, ?_⟩
  rw [hm3]
  unfold attempted
  rw [List.mem_reverse, List.mem_map]
  exact ⟨call, List.mem_filter.2 ⟨hcall, by simpa using hitems⟩, rfl⟩

/-! ### Directories stay directories, files stay files -/

theorem persists_refl (fs : String → Option Node) : Persists fs fs :=
  fun _ => ⟨fun h => h, fun x h => ⟨x, h⟩⟩

theorem persists_trans {a b c : String → Option Node} (h1 : Persists a b) (h2 : Persists b c) :
    Persists a c := by
  intro p
  refine ⟨fun h => (h2 p).1 ((h1 p).1 h), ?_⟩
  intro x hx
  obtain ⟨y, hy⟩ := (h1 p).2 x hx
  exact (h2 p).2 y hy

theorem persists_osMkdirAll (env : Env) (w : World) (path : String) (perm : Nat) :
    Persists w.fs (osMkdirAll env w path perm).2.fs := by
  intro p
  rcases osMkdirAll_fs env w path perm p with h | ⟨h1, -, -⟩
  · rw [h]; exact persists_refl _ p
  · constructor
    · intro h; rw [h1] at h; simp at h
    · intro x h; rw [h1] at h; simp at h

theorem persists_downloadCookbookFile (env : Env) (w : World) (url file : String) :
    Persists w.fs (downloadCookbookFile env w url file).2.fs := by
  intro p
  rcases downloadCookbookFile_fs env w url file with ⟨-, h⟩ | ⟨h1, -, x, h, -⟩
  · rw [h]; exact persists_refl _ p
  · rw [h p]
    by_cases hp : p = file
    · subst hp
      simp only [if_true]
      exact ⟨fun hd => absurd hd h1, fun _ _ => ⟨x, rfl⟩⟩
    · rw [if_neg hp]; exact persists_refl _ p

theorem persists_downloadItemsLoop (env : Env) (localPath : String)
    (items : List CookbookItem) (w : World) :
    Persists w.fs (downloadItemsLoop env localPath w items).2.fs := by
  induction items generalizing w with
  | nil => exact persists_refl _
  | cons item rest ih =>
    simp only [downloadItemsLoop]
    have h1 := persists_downloadCookbookFile env w item.Url (Join [localPath, item.Name])
    rcases hr : downloadCookbookFile env w item.Url (Join [localPath, item.Name]) with ⟨fe, fw⟩
    rw [hr] at h1
    cases fe with
    | some err => exact h1
    | none => exact persists_trans h1 (ih fw)

theorem persists_downloadCookbookItems (env : Env) (w : World) (items : List CookbookItem)
    (itemType localPath : String) :
    Persists w.fs (downloadCookbookItems env w items itemType localPath).2.fs := by
  unfold downloadCookbookItems
  split
  · exact persists_refl _
  · simp only
    have h1 := persists_osMkdirAll env
      (w.log (Event.printed ("Downloading " ++ itemType ++ "\n"))) localPath 0o755
    rcases hr : osMkdirAll env (w.log (Event.printed ("Downloading " ++ itemType ++ "\n")))
      localPath 0o755 with ⟨me, mw⟩
    rw [hr] at h1
    cases me with
    | some err => exact h1
    | none => exact persists_trans h1 (persists_downloadItemsLoop env localPath items mw)

theorem persists_runCalls (env : Env) (calls : List (List CookbookItem × String × String))
    (w : World) : Persists w.fs (runCalls env w calls).2.fs := by
  induction calls generalizing w with
  | nil => exact persists_refl _
  | cons call rest ih =>
    simp only [runCalls]
    exact persists_trans (persists_downloadCookbookItems env w call.1 call.2.1 call.2.2) (ih _)

/-! ### Files survive what is written elsewhere -/

theorem downloadItemsLoop_fs_ne (env : Env) (localPath : String) (items : List CookbookItem)
    (w : World) (p : String) (hp : p ∉ items.map (itemPath localPath)) :
    (downloadItemsLoop env localPath w items).2.fs p = w.fs p := by
  induction items generalizing w with
  | nil => rfl
  | cons item rest ih =>
    simp only [List.map_cons, List.mem_cons, not_or] at hp
    simp only [downloadItemsLoop]
    have h1 := downloadCookbookFile_fs_ne env w item.Url (Join [localPath, item.Name]) p hp.1
    rcases hr : downloadCookbookFile env w item.Url (Join [localPath, item.Name]) with ⟨fe, fw⟩
    rw [hr] at h1
    cases fe with
    | some err => exact h1
    | none =>
      simp only at h1 ⊢
      rw [ih fw hp.2, h1]

theorem osMkdirAll_keeps_file (env : Env) (w : World) (path : String) (perm : Nat)
    (p x : String) (h : w.fs p = some (Node.file x)) :
    (osMkdirAll env w path perm).2.fs p = some (Node.file x) := by
  rcases osMkdirAll_fs env w path perm p with h1 | ⟨h1, -, -⟩
  · rw [h1]; exact h
  · rw [h] at h1; simp at h1

theorem downloadCookbookItems_keeps_file (env : Env) (w : World) (items : List CookbookItem)
    (itemType localPath : String) (p x : String) (h : w.fs p = some (Node.file x))
    (hp : p ∉ items.map (itemPath localPath)) :
    (downloadCookbookItems env w items itemType localPath).2.fs p = some (Node.file x) := by
  unfold downloadCookbookItems
  split
  · exact h
  · simp only
    have h1 := osMkdirAll_keeps_file env
      (w.log (Event.printed ("Downloading " ++ itemType ++ "\n"))) localPath 0o755 p x h
    rcases hr : osMkdirAll env (w.log (Event.printed ("Downloading " ++ itemType ++ "\n")))
      localPath 0o755 with ⟨me, mw⟩
    rw [hr] at h1
    cases me with
    | some err => exact h1
    | none =>
      simp only at h1 ⊢
      rw [downloadItemsLoop_fs_ne env localPath items mw p hp, h1]

theorem runCalls_keeps_file (env : Env) (calls : List (List CookbookItem × String × String))
    (w : World) (p x : String) (h : w.fs p = some (Node.file x)) (hp : p ∉ allPaths calls) :
    (runCalls env w calls).2.fs p = some (Node.file x) := by
  induction calls generalizing w with
  | nil => exact h
  | cons call rest ih =>
    simp only [allPaths, List.mem_append, not_or] at hp
    simp only [runCalls]
    exact ih _ (downloadCookbookItems_keeps_file env w call.1 call.2.1 call.2.2 p x h hp.1) hp.2

/-! ### The loop over the items, piece by piece -/

theorem downloadItemsLoop_append (env : Env) (localPath : String)
    (xs ys : List CookbookItem) (w : World) :
    downloadItemsLoop env localPath w (xs ++ ys) =
      match downloadItemsLoop env localPath w xs with
      | (some err, w1) => (some err, w1)
      | (none, w1) => downloadItemsLoop env localPath w1 ys := by
  induction xs generalizing w with
  | nil => rfl
  | cons x xs ih =>
    simp only [List.cons_append, downloadItemsLoop]
    rcases hr : downloadCookbookFile env w x.Url (Join [localPath, x.Name]) with ⟨fe, fw⟩
    cases fe with
    | some err => rfl
    | none => exact ih fw

/-- Every item of a loop that returned no error was transferred, from the world the items
before it left, and its file holds the bytes of its response when no later item of the
loop is written to the same path. -/
theorem downloadItemsLoop_success (env : Env) (localPath : String)
    (before : List CookbookItem) (item : CookbookItem) (after : List CookbookItem) (w : World)
    (h : (downloadItemsLoop env localPath w (before ++ item :: after)).1 = none) :
    (downloadItemsLoop env localPath w before).1 = none ∧
    ∃ request body,
      Transfers env (downloadItemsLoop env localPath w before).2 item.Url
        (itemPath localPath item) request body ∧
      (itemPath localPath item ∉ after.map (itemPath localPath) →
        (downloadItemsLoop env localPath w (before ++ item :: after)).2.fs
          (itemPath localPath item) = some (Node.file body.data)) := by
  rw [downloadItemsLoop_append] at h ⊢
  rcases hb : downloadItemsLoop env localPath w before with ⟨be, bw⟩
  rw [hb] at h
  cases be with
  | some err => simp at h
  | none =>
    simp only at h ⊢
    refine ⟨trivial, ?_⟩
    simp only [downloadItemsLoop] at h ⊢
    have hs := downloadCookbookFile_success env bw item.Url (Join [localPath, item.Name])
    rcases hr : downloadCookbookFile env bw item.Url (Join [localPath, item.Name]) with ⟨fe, fw⟩
    rw [hr] at h hs
    cases fe with
    | some err => simp at h
    | none =>
      simp only at h hs ⊢
      obtain ⟨request, body, ht, hfs⟩ := hs trivial
      refine ⟨request, body, ht, ?_⟩
      intro hnot
      rw [downloadItemsLoop_fs_ne env localPath after fw _ hnot]
      have := hfs (Join [localPath, item.Name])
      simpa [itemPath] using this

/-! ### The first failing item (C5) -/

/-- C5 (amended): when the directory was created, the items `before` were transferred and
the transfer of the next item fails with `e`, `downloadCookbookItems` returns exactly `e`
in the world that failing transfer left, whatever items come later (none of them is
requested), and every earlier item whose path is not written again by a later item up to
the failing one still holds the bytes of its response. -/
theorem C5_first_failing_item (env : Env) (w : World) (itemType localPath : String)
    (before : List CookbookItem) (failing : CookbookItem) (later : List CookbookItem)
    (e : Error) (w1 wk wf : World)
    (hdir : osMkdirAll env (w.log (Event.printed ("Downloading " ++ itemType ++ "\n")))
      localPath 0o755 = (none, w1))
    (hbefore : downloadItemsLoop env localPath w1 before = (none, wk))
    (hfail : downloadCookbookFile env wk failing.Url (itemPath localPath failing) =
      (some e, wf)) :
    downloadCookbookItems env w (before ++ failing :: later) itemType localPath =
        (some e, wf) ∧
      ∀ pre item post, before = pre ++ item :: post →
        itemPath localPath item ∉ (post ++ [failing]).map (itemPath localPath) →
        ∃ request body,
          Transfers env (downloadItemsLoop env localPath w1 pre).2 item.Url
            (itemPath localPath item) request body ∧
          wf.fs (itemPath localPath item) = some (Node.file body.data) := by
  constructor
  · unfold downloadCookbookItems
    rw [if_neg (by simp)]
    simp only
    rw [hdir]
    simp only
    rw [downloadItemsLoop_append, hbefore]
    simp only [downloadItemsLoop]
    have hfail' : downloadCookbookFile env wk failing.Url (Join [localPath, failing.Name]) =
        (some e, wf) := hfail
    rw [hfail']
  · intro pre item post hsplit hnot
    subst hsplit
    have hb1 : (downloadItemsLoop env localPath w1 (pre ++ item :: post)).1 = none := by
      rw [hbefore]
    obtain ⟨-, request, body, ht, hfs⟩ := downloadItemsLoop_success env localPath pre item post w1 hb1
    refine ⟨request, body, ht, ?_⟩
    simp only [List.map_append, List.map_cons, List.map_nil, List.mem_append,
      List.mem_singleton, not_or] at hnot
    have h1 := hfs hnot.1
    rw [hbefore] at h1
    have h2 := downloadCookbookFile_fs_ne env wk failing.Url (itemPath localPath failing)
      (itemPath localPath item) hnot.2
    rw [hfail] at h2
    simp only at h1 h2
    rw [h2, h1]

/-- C5, witness: three files; the request for the second is refused, so the third is never
requested and the first keeps its bytes. -/
theorem C5_first_failing_item_witness :
    (downloadCookbookItems refusingEnv emptyDisk
        ([mkItem "a" "u1"] ++ mkItem "b" "u2" :: [mkItem "c" "u3"]) "files" "d").1 =
        some "connection refused" ∧
      (downloadCookbookItems refusingEnv emptyDisk
        ([mkItem "a" "u1"] ++ mkItem "b" "u2" :: [mkItem "c" "u3"]) "files" "d").2.fs "d/c" =
        none :=
  ⟨congrArg Prod.fst
      (C5_first_failing_item refusingEnv emptyDisk "files" "d" [mkItem "a" "u1"]
        (mkItem "b" "u2") [mkItem "c" "u3"] "connection refused" _ _ _
        (Prod.ext (by decide) rfl) (Prod.ext (by decide) rfl)
        (Prod.ext (by decide) rfl)).1,
    by decide⟩

/-- C5 as stated fails when the failing item is written to the path of an earlier one: the
first item's file is created again and receives only what arrived of the second body. -/
theorem C5_counterexample :
    (osMkdirAll brokenBodyEnv (emptyDisk.log (Event.printed "Downloading files\n"))
        "d" 0o755).1 = none ∧
      (downloadItemsLoop brokenBodyEnv "d"
        (osMkdirAll brokenBodyEnv (emptyDisk.log (Event.printed "Downloading files\n"))
          "d" 0o755).2 [mkItem "a" "u1"]).1 = none ∧
      (downloadItemsLoop brokenBodyEnv "d"
        (osMkdirAll brokenBodyEnv (emptyDisk.log (Event.printed "Downloading files\n"))
          "d" 0o755).2 [mkItem "a" "u1"]).2.fs "d/a" = some (Node.file "one") ∧
      (downloadCookbookItems brokenBodyEnv emptyDisk [mkItem "a" "u1", mkItem "a" "u2"]
        "files" "d").1 = some "unexpected EOF" ∧
      (downloadCookbookItems brokenBodyEnv emptyDisk [mkItem "a" "u1", mkItem "a" "u2"]
        "files" "d").2.fs "d/a" = some (Node.file "tw") := by
  decide

/-! ### After a successful download (C3) -/

theorem downloadCookbookItems_success_files (env : Env) (w : World)
    (items : List CookbookItem) (itemType localPath : String)
    (hok : (downloadCookbookItems env w items itemType localPath).1 = none)
    (hnd : (items.map (itemPath localPath)).Nodup) :
    ∀ item ∈ items, ∃ w1 request body,
      Transfers env w1 item.Url (itemPath localPath item) request body ∧
      (downloadCookbookItems env w items itemType localPath).2.fs (itemPath localPath item) =
        some (Node.file body.data) := by
  intro item hitem
  obtain ⟨before, after, rfl⟩ := List.append_of_mem hitem
  unfold downloadCookbookItems at hok ⊢
  rw [if_neg (by simp)] at hok ⊢
  simp only at hok ⊢
  rcases hr : osMkdirAll env (w.log (Event.printed ("Downloading " ++ itemType ++ "\n")))
    localPath 0o755 with ⟨me, mw⟩
  rw [hr] at hok
  cases me with
  | some err => simp at hok
  | none =>
    simp only at hok ⊢
    obtain ⟨-, request, body, ht, hfs⟩ :=
      downloadItemsLoop_success env localPath before item after mw hok
    refine ⟨_, request, body, ht, hfs ?_⟩
    rw [List.map_append, List.map_cons] at hnd
    have := (List.nodup_append.1 hnd).2.1
    exact (List.nodup_cons.1 this).1

theorem downloadCookbookItems_success_dirs (env : Env) (w : World)
    (items : List CookbookItem) (itemType localPath : String)
    (hok : (downloadCookbookItems env w items itemType localPath).1 = none)
    (hne : items ≠ []) :
    localPath ≠ "" ∧ ∀ d ∈ ancestors localPath,
      (downloadCookbookItems env w items itemType localPath).2.fs d = some Node.dir := by
  have hl : ¬ items.length = 0 := fun h0 => hne (List.length_eq_zero.1 h0)
  unfold downloadCookbookItems at hok ⊢
  rw [if_neg hl] at hok ⊢
  simp only at hok ⊢
  have hm := osMkdirAll_ok env (w.log (Event.printed ("Downloading " ++ itemType ++ "\n")))
    localPath 0o755
  rcases hr : osMkdirAll env (w.log (Event.printed ("Downloading " ++ itemType ++ "\n")))
    localPath 0o755 with ⟨me, mw⟩
  rw [hr] at hok hm
  cases me with
  | some err => simp at hok
  | none =>
    simp only at hok hm ⊢
    obtain ⟨h1, h2⟩ := hm trivial
    refine ⟨h1, fun d hd => ?_⟩
    exact ((persists_downloadItemsLoop env localPath items mw) d).1 (h2 d hd)

theorem nodup_allPaths_cons {call : List CookbookItem × String × String}
    {rest : List (List CookbookItem × String × String)} (h : (allPaths (call :: rest)).Nodup) :
    (callPaths call).Nodup ∧ (allPaths rest).Nodup ∧
      ∀ p ∈ callPaths call, p ∉ allPaths rest := by
  simp only [allPaths] at h
  obtain ⟨h1, h2, h3⟩ := List.nodup_append.1 h
  exact ⟨h1, h2, fun p hp hq => h3 hp hq⟩

/-- When every category call returned no error and no two items share a path, every item's
file holds the bytes of its response. -/
theorem runCalls_success_files (env : Env) (calls : List (List CookbookItem × String × String))
    (w : World) (hok : ∀ e ∈ (runCalls env w calls).1, e = none)
    (hnd : (allPaths calls).Nodup) :
    ∀ call ∈ calls, ∀ item ∈ call.1, ∃ w1 request body,
      Transfers env w1 item.Url (itemPath call.2.2 item) request body ∧
      (runCalls env w calls).2.fs (itemPath call.2.2 item) = some (Node.file body.data) := by
  induction calls generalizing w with
  | nil => intro call hcall; simp at hcall
  | cons c rest ih =>
    obtain ⟨hn1, hn2, hn3⟩ := nodup_allPaths_cons hnd
    simp only [runCalls, List.mem_cons, forall_eq_or_imp] at hok
    intro call hcall item hitem
    simp only [runCalls]
    rcases List.mem_cons.1 hcall with h | h
    · subst h
      obtain ⟨w1, request, body, ht, hfs⟩ :=
        downloadCookbookItems_success_files env w call.1 call.2.1 call.2.2 hok.1 hn1 item hitem
      refine ⟨w1, request, body, ht, ?_⟩
      apply runCalls_keeps_file env rest _ _ _ hfs
      exact hn3 _ (List.mem_map.2 ⟨item, hitem, rfl⟩)
    · exact ih _ hok.2 hn2 call h item hitem

/-- When every category call returned no error, the destination of every call that has
items, and every directory above it, is a directory at the end. -/
theorem runCalls_success_dirs (env : Env) (calls : List (List CookbookItem × String × String))
    (w : World) (hok : ∀ e ∈ (runCalls env w calls).1, e = none) :
    ∀ call ∈ calls, call.1 ≠ [] → call.2.2 ≠ "" ∧
      ∀ d ∈ ancestors call.2.2, (runCalls env w calls).2.fs d = some Node.dir := by
  induction calls generalizing w with
  | nil => intro call hcall; simp at hcall
  | cons c rest ih =>
    simp only [runCalls, List.mem_cons, forall_eq_or_imp] at hok
    intro call hcall hne
    simp only [runCalls]
    rcases List.mem_cons.1 hcall with h | h
    · subst h
      obtain ⟨h1, h2⟩ :=
        downloadCookbookItems_success_dirs env w call.1 call.2.1 call.2.2 hok.1 hne
      exact ⟨h1, fun d hd => ((persists_runCalls env rest _) d).1 (h2 d hd)⟩
    · exact ih _ hok.2 call h hne

/-- The destination of a category call: the cookbook directory for `root_files`, the
subdirectory named after the category for the other eight. -/
theorem categoryCalls_dest (cookbook : Cookbook) (cookbookPath : String)
    (call : List CookbookItem × String × String)
    (hcall : call ∈ categoryCalls cookbook cookbookPath) :
    (call.2.1 = "root_files" ∧ call.2.2 = cookbookPath) ∨
      (call.2.1 ≠ "root_files" ∧ Normal call.2.1.data ∧
        call.2.2 = Join [cookbookPath, call.2.1]) := by
  simp only [categoryCalls, List.mem_cons, List.mem_singleton, List.not_mem_nil, or_false]
    at hcall
  rcases hcall with h | h | h | h | h | h | h | h | h <;> subst h
  · exact Or.inl ⟨rfl, rfl⟩
  all_goals (refine Or.inr ⟨?_, ?_, rfl⟩ <;> dsimp only <;> decide)

/-- A loop all of whose transfers return no error returns no error. -/
theorem downloadItemsLoop_of_succeed (env : Env) (localPath : String)
    (items : List CookbookItem) (w : World) (h : ItemsSucceed env localPath w items) :
    (downloadItemsLoop env localPath w items).1 = none := by
  induction items generalizing w with
  | nil => rfl
  | cons item rest ih =>
    obtain ⟨h1, h2⟩ := h
    simp only [downloadItemsLoop]
    have h1' : (downloadCookbookFile env w item.Url (Join [localPath, item.Name])).1 = none := h1
    have h2' : ItemsSucceed env localPath
        (downloadCookbookFile env w item.Url (Join [localPath, item.Name])).2 rest := h2
    rcases hr : downloadCookbookFile env w item.Url (Join [localPath, item.Name]) with ⟨fe, fw⟩
    rw [hr] at h1' h2'
    simp only at h1' h2'
    subst h1'
    exact ih fw h2'

/-- A category call whose directory creation and transfers return no error returns no
error. -/
theorem downloadCookbookItems_of_succeed (env : Env) (w : World)
    (call : List CookbookItem × String × String) (h : CallSucceeds env w call) :
    (downloadCookbookItems env w call.1 call.2.1 call.2.2).1 = none := by
  unfold downloadCookbookItems
  rcases h with h | ⟨h1, h2⟩
  · rw [h]; rfl
  · split
    · rfl
    · simp only
      rcases hr : osMkdirAll env (w.log (Event.printed ("Downloading " ++ call.2.1 ++ "\n")))
        call.2.2 0o755 with ⟨me, mw⟩
      rw [hr] at h1 h2
      simp only at h1 h2
      subst h1
      exact downloadItemsLoop_of_succeed env call.2.2 call.1 mw h2

/-- When every directory creation and every transfer of the category calls returns no
error, every category call returns no error. -/
theorem runCalls_of_succeed (env : Env) (calls : List (List CookbookItem × String × String))
    (w : World) (h : CallsSucceed env w calls) : ∀ e ∈ (runCalls env w calls).1, e = none := by
  induction calls generalizing w with
  | nil => intro e he; simp [runCalls] at he
  | cons c rest ih =>
    obtain ⟨h1, h2⟩ := h
    simp only [runCalls, List.mem_cons, forall_eq_or_imp]
    exact ⟨downloadCookbookItems_of_succeed env w c h1, ih _ h2⟩

theorem invariant_name_ne_empty (cookbook : Cookbook) (h : cookbook.Invariant) :
    cookbook.Name ≠ "" := by
  intro h0
  unfold Cookbook.Invariant at h
  rw [h0] at h
  have := congrArg String.data h
  simp [String.data_append] at this

/-- C3: for every manifest (with the name its invariant gives it) and local directory, when
the manifest fetch, every directory creation and every transfer succeed and no two items
map to the same path, `DownloadCookbookAt` returns no error and afterwards the cookbook
directory `path.Join(localDir, Name)` exists if some category has items, the destination
directory of every category that has items exists, every item's file holds exactly the
bytes of the response to the request for its URL, and the destination of `root_files` is
the cookbook directory while that of every other category is the subdirectory named after
it. -/
theorem C3_download_materialises (env : Env) (w : World) (name version localDir : String)
    (cookbook : Cookbook)
    (hfetch : env.getVersion name
      (if version = "" ∨ version = "latest" then "_latest" else version) = Except.ok cookbook)
    (hinv : cookbook.Invariant)
    (hsucceed : CallsSucceed env (startWorld w name version cookbook)
      (categoryCalls cookbook (Join [localDir, cookbook.Name])))
    (hdistinct : (allPaths (categoryCalls cookbook (Join [localDir, cookbook.Name]))).Nodup) :
    (DownloadCookbookAt env w name version localDir).1 = none ∧
    ((∃ call ∈ categoryCalls cookbook (Join [localDir, cookbook.Name]), call.1 ≠ []) →
      (DownloadCookbookAt env w name version localDir).2.fs (Join [localDir, cookbook.Name]) =
        some Node.dir) ∧
    (∀ call ∈ categoryCalls cookbook (Join [localDir, cookbook.Name]), call.1 ≠ [] →
      (DownloadCookbookAt env w name version localDir).2.fs call.2.2 = some Node.dir) ∧
    (∀ call ∈ categoryCalls cookbook (Join [localDir, cookbook.Name]), ∀ item ∈ call.1,
      ∃ w1 request body, Transfers env w1 item.Url (itemPath call.2.2 item) request body ∧
        (DownloadCookbookAt env w name version localDir).2.fs (itemPath call.2.2 item) =
          some (Node.file body.data)) ∧
    (∀ call ∈ categoryCalls cookbook (Join [localDir, cookbook.Name]),
      call.2.2 = if call.2.1 = "root_files" then Join [localDir, cookbook.Name]
        else Join [Join [localDir, cookbook.Name], call.2.1]) := by
  have hres := DownloadCookbookAt_ok env w name version localDir cookbook hfetch
  have hall : ∀ e ∈ (categoryRuns env w name version localDir cookbook).1, e = none :=
    runCalls_of_succeed env _ _ hsucceed
  have hnone : (DownloadCookbookAt env w name version localDir).1 = none := by
    rw [hres, (firstError_none_iff _).2 hall]
  have hcb : Join [localDir, cookbook.Name] ≠ "" :=
    join_ne_empty localDir cookbook.Name (invariant_name_ne_empty cookbook hinv)
  have hfs : (DownloadCookbookAt env w name version localDir).2.fs =
      (categoryRuns env w name version localDir cookbook).2.fs := by
    rw [hres]
    split <;> rfl
  rw [hfs]
  unfold categoryRuns at hall ⊢
  have hdirs := runCalls_success_dirs env _ (startWorld w name version cookbook) hall
  refine ⟨hnone, ?_, ?_, ?_, ?_⟩
  · rintro ⟨call, hcall, hne⟩
    obtain ⟨-, hd⟩ := hdirs call hcall hne
    rcases categoryCalls_dest cookbook _ call hcall with ⟨-, h2⟩ | ⟨-, hn, h2⟩
    · apply hd
      rw [h2]
      exact mem_ancestors_self _ hcb
    · apply hd
      rw [h2]
      exact cookbookPath_mem_ancestors localDir cookbook.Name call.2.1 hn hcb
  · intro call hcall hne
    obtain ⟨h1, hd⟩ := hdirs call hcall hne
    exact hd _ (mem_ancestors_self _ h1)
  · exact runCalls_success_files env _ (startWorld w name version cookbook) hall hdistinct
  · intro call hcall
    rcases categoryCalls_dest cookbook _ call hcall with ⟨h1, h2⟩ | ⟨h1, -, h2⟩
    · rw [if_pos h1]; exact h2
    · rw [if_neg h1]; exact h2

/-- C3, witness: the download of the repository's test `TestDownloadCookbookAt`. -/
theorem C3_download_materialises_witness :
    fooCookbook.Invariant ∧
      CallsSucceed fooEnv (startWorld tmpDisk "foo" "0.2.1" fooCookbook)
        (categoryCalls fooCookbook (Join ["/tmp", fooCookbook.Name])) ∧
      (DownloadCookbookAt fooEnv tmpDisk "foo" "0.2.1" "/tmp").1 = none ∧
      (DownloadCookbookAt fooEnv tmpDisk "foo" "0.2.1" "/tmp").2.fs
        (Join ["/tmp", fooCookbook.Name]) = some Node.dir ∧
      (DownloadCookbookAt fooEnv tmpDisk "foo" "0.2.1" "/tmp").2.fs
        (Join [Join ["/tmp", fooCookbook.Name], "recipes"]) = some Node.dir :=
  ⟨by decide, by decide,
    (C3_download_materialises fooEnv tmpDisk "foo" "0.2.1" "/tmp" fooCookbook rfl
      (by decide) (by decide) (by decide)).1,
    (C3_download_materialises fooEnv tmpDisk "foo" "0.2.1" "/tmp" fooCookbook rfl
      (by decide) (by decide) (by decide)).2.1
        ⟨(fooCookbook.RootFiles, "root_files", Join ["/tmp", fooCookbook.Name]),
          by decide, by decide⟩,
    (C3_download_materialises fooEnv tmpDisk "foo" "0.2.1" "/tmp" fooCookbook rfl
      (by decide) (by decide) (by decide)).2.2.1
        (fooCookbook.Recipes, "recipes", Join [Join ["/tmp", fooCookbook.Name], "recipes"])
        (by decide) (by decide)⟩

/-! ### What a download changes (C10) -/

theorem inside_append (root x : String) : Inside root (root ++ "/" ++ x) := by
  right
  simp [String.data_append]

theorem inside_append_append (root x y : String) : Inside root (root ++ "/" ++ x ++ "/" ++ y) := by
  right
  simp [String.data_append]

/-- One category call changes a path it does not write a file to only by creating it as a
directory at or above its destination. -/
theorem downloadCookbookItems_frame (env : Env) (w : World) (items : List CookbookItem)
    (itemType localPath : String) (p : String)
    (hp : p ∉ items.map (itemPath localPath)) :
    (downloadCookbookItems env w items itemType localPath).2.fs p = w.fs p ∨
      (w.fs p = none ∧
        (downloadCookbookItems env w items itemType localPath).2.fs p = some Node.dir ∧
        p ∈ ancestors localPath) := by
  unfold downloadCookbookItems
  split
  · exact Or.inl rfl
  · simp only
    have h1 := osMkdirAll_fs env (w.log (Event.printed ("Downloading " ++ itemType ++ "\n")))
      localPath 0o755 p
    rcases hr : osMkdirAll env (w.log (Event.printed ("Downloading " ++ itemType ++ "\n")))
      localPath 0o755 with ⟨me, mw⟩
    rw [hr] at h1
    simp only [log_fs] at h1
    cases me with
    | some err => exact h1
    | none =>
      simp only
      rw [downloadItemsLoop_fs_ne env localPath items mw p hp]
      exact h1

theorem runCalls_frame (env : Env) (calls : List (List CookbookItem × String × String))
    (w : World) (p : String) (hp : p ∉ allPaths calls) :
    (runCalls env w calls).2.fs p = w.fs p ∨
      (w.fs p = none ∧ (runCalls env w calls).2.fs p = some Node.dir ∧
        ∃ call ∈ calls, p ∈ ancestors call.2.2) := by
  induction calls generalizing w with
  | nil => exact Or.inl rfl
  | cons c rest ih =>
    simp only [allPaths, List.mem_append, not_or] at hp
    simp only [runCalls]
    rcases downloadCookbookItems_frame env w c.1 c.2.1 c.2.2 p hp.1 with h1 | ⟨h1, h2, h3⟩
    · rcases ih (downloadCookbookItems env w c.1 c.2.1 c.2.2).2 hp.2 with h4 | ⟨h4, h5, call, h6, h7⟩
      · left; rw [h4, h1]
      · right
        rw [h1] at h4
        exact ⟨h4, h5, call, List.mem_cons_of_mem _ h6, h7⟩
    · right
      refine ⟨h1, ?_, c, List.mem_cons_self _ _, h3⟩
      exact ((persists_runCalls env rest _) p).1 h2

theorem mem_allPaths {calls : List (List CookbookItem × String × String)} {p : String}
    (h : p ∈ allPaths calls) : ∃ call ∈ calls, ∃ item ∈ call.1, p = itemPath call.2.2 item := by
  induction calls with
  | nil => simp [allPaths] at h
  | cons c rest ih =>
    simp only [allPaths, List.mem_append] at h
    rcases h with h | h
    · obtain ⟨item, h1, h2⟩ := List.mem_map.1 h
      exact ⟨c, List.mem_cons_self _ _, item, h1, h2.symm⟩
    · obtain ⟨call, h1, h2⟩ := ih h
      exact ⟨call, List.mem_cons_of_mem _ h1, h2⟩

theorem DownloadCookbookAt_fs (env : Env) (w : World) (name version localDir : String)
    (cookbook : Cookbook)
    (h : env.getVersion name
      (if version = "" ∨ version = "latest" then "_latest" else version) = Except.ok cookbook) :
    (DownloadCookbookAt env w name version localDir).2.fs =
      (categoryRuns env w name version localDir cookbook).2.fs := by
  rw [DownloadCookbookAt_ok env w name version localDir cookbook h]
  split <;> rfl

/-- C10 (amended): when the manifest's name and every item name are single path elements,
every category destination and every item path lies inside the cookbook directory
`path.Join(localDir, Name)`, an item path being its category's destination followed by a
slash and the item name; and the only paths the download changes outside the cookbook
directory are missing directories above it, which `os.MkdirAll` creates. -/
theorem C10_paths_inside_cookbook (env : Env) (w : World) (name version localDir : String)
    (cookbook : Cookbook)
    (hfetch : env.getVersion name
      (if version = "" ∨ version = "latest" then "_latest" else version) = Except.ok cookbook)
    (hname : Normal cookbook.Name.data)
    (hitems : ∀ call ∈ categoryCalls cookbook (Join [localDir, cookbook.Name]),
      ∀ item ∈ call.1, Normal item.Name.data) :
    (∀ call ∈ categoryCalls cookbook (Join [localDir, cookbook.Name]),
      Inside (Join [localDir, cookbook.Name]) call.2.2 ∧
      ∀ item ∈ call.1, itemPath call.2.2 item = call.2.2 ++ "/" ++ item.Name ∧
        Inside (Join [localDir, cookbook.Name]) (itemPath call.2.2 item)) ∧
    (∀ p, (DownloadCookbookAt env w name version localDir).2.fs p ≠ w.fs p →
      Inside (Join [localDir, cookbook.Name]) p ∨
        (p ∈ ancestors (Join [localDir, cookbook.Name]) ∧ w.fs p = none ∧
          (DownloadCookbookAt env w name version localDir).2.fs p = some Node.dir)) := by
  have hcb : Proper (Join [localDir, cookbook.Name]) :=
    join_normal_proper localDir cookbook.Name hname
  have hpaths : ∀ call ∈ categoryCalls cookbook (Join [localDir, cookbook.Name]),
      Inside (Join [localDir, cookbook.Name]) call.2.2 ∧
      ∀ item ∈ call.1, itemPath call.2.2 item = call.2.2 ++ "/" ++ item.Name ∧
        Inside (Join [localDir, cookbook.Name]) (itemPath call.2.2 item) := by
    intro call hcall
    rcases categoryCalls_dest cookbook _ call hcall with ⟨-, h2⟩ | ⟨-, hn, h2⟩
    · rw [h2]
      refine ⟨Or.inl rfl, fun item hitem => ?_⟩
      have hj := proper_join _ item.Name hcb (hitems call hcall item hitem)
      unfold itemPath
      rw [hj]
      exact ⟨rfl, inside_append _ _⟩
    · have hd : call.2.2 = Join [localDir, cookbook.Name] ++ "/" ++ call.2.1 := by
        rw [h2]; exact proper_join _ _ hcb hn
      have hdp : Proper call.2.2 := by
        rw [h2]; exact join_normal_proper _ _ hn
      refine ⟨by rw [hd]; exact inside_append _ _, fun item hitem => ?_⟩
      have hj := proper_join _ item.Name hdp (hitems call hcall item hitem)
      unfold itemPath
      rw [hj]
      refine ⟨rfl, ?_⟩
      rw [hd]
      exact inside_append_append _ _ _
  refine ⟨hpaths, ?_⟩
  intro p hp
  rw [DownloadCookbookAt_fs env w name version localDir cookbook hfetch] at hp ⊢
  unfold categoryRuns at hp ⊢
  by_cases hmem : p ∈ allPaths (categoryCalls cookbook (Join [localDir, cookbook.Name]))
  · obtain ⟨call, hcall, item, hitem, rfl⟩ := mem_allPaths hmem
    exact Or.inl ((hpaths call hcall).2 item hitem).2
  · rcases runCalls_frame env _ (startWorld w name version cookbook) p hmem with
      h | ⟨h1, h2, call, hcall, h3⟩
    · exact absurd h hp
    · have h1' : w.fs p = none := h1
      rcases categoryCalls_dest cookbook _ call hcall with ⟨-, hd⟩ | ⟨-, hn, hd⟩
      · rw [hd] at h3
        exact Or.inr ⟨h3, h1', h2⟩
      · have hd2 : call.2.2 = Join [localDir, cookbook.Name] ++ "/" ++ call.2.1 := by
          rw [hd]; exact proper_join _ _ hcb hn
        have hne := proper_ne_root _ hcb
        have hne0 : Join [localDir, cookbook.Name] ≠ "" := fun h0 =>
          proper_data_ne_nil _ hcb ((string_eq_empty_iff _).1 h0)
        rw [hd2, ancestors_append _ _ hne0 hne.1 hne.2 hn.2.1] at h3
        rcases List.mem_append.1 h3 with h4 | h4
        · exact Or.inr ⟨h4, h1', h2⟩
        · left
          simp only [List.mem_singleton] at h4
          rw [h4]
          exact inside_append _ _

/-- C10, witness: the recipe of the repository's test is written below the cookbook
directory, to its category's directory followed by a slash and its name. -/
theorem C10_paths_inside_cookbook_witness :
    Normal fooCookbook.Name.data ∧
      itemPath (Join [Join ["/tmp", fooCookbook.Name], "recipes"]) fooRecipe =
        Join [Join ["/tmp", fooCookbook.Name], "recipes"] ++ "/" ++ fooRecipe.Name ∧
      Inside (Join ["/tmp", fooCookbook.Name])
        (itemPath (Join [Join ["/tmp", fooCookbook.Name], "recipes"]) fooRecipe) :=
  ⟨by decide,
    ((C10_paths_inside_cookbook fooEnv tmpDisk "foo" "0.2.1" "/tmp" fooCookbook rfl
      (by decide) (by decide)).1
      (fooCookbook.Recipes, "recipes", Join [Join ["/tmp", fooCookbook.Name], "recipes"])
      (by decide)).2 fooRecipe (by decide)⟩

/-- C10 as stated fails when the local directory does not exist yet: `os.MkdirAll` creates
it, and it does not lie inside the cookbook directory. -/
theorem C10_counterexample :
    fooEnv.getVersion "foo" "0.2.1" = Except.ok fooCookbook ∧
      Normal fooCookbook.Name.data ∧
      (∀ call ∈ categoryCalls fooCookbook (Join ["/tmp/new", fooCookbook.Name]),
        ∀ item ∈ call.1, Normal item.Name.data) ∧
      (DownloadCookbookAt fooEnv tmpDisk "foo" "0.2.1" "/tmp/new").1 = none ∧
      tmpDisk.fs "/tmp/new" = none ∧
      (DownloadCookbookAt fooEnv tmpDisk "foo" "0.2.1" "/tmp/new").2.fs "/tmp/new" =
        some Node.dir ∧
      ¬ Inside (Join ["/tmp/new", fooCookbook.Name]) "/tmp/new" := by
  refine ⟨rfl, ?_, ?_, ?_, ?_, ?_, ?_⟩ <;> decide

/-! ### Running the download a second time -/

theorem follows_downloadCookbookFile (env : Env)
    (hdet : ∀ w1 w2 request, env.doRequest w1 request = env.doRequest w2 request)
    (final : String → Option Node) (a b : World) (url file : String)
    (hok : (downloadCookbookFile env a url file).1 = none)
    (hper : Persists (downloadCookbookFile env a url file).2.fs final)
    (hsim : Follows final a b) :
    (downloadCookbookFile env b url file).1 = none ∧
      Follows final (downloadCookbookFile env a url file).2
        (downloadCookbookFile env b url file).2 := by
  obtain ⟨request, body, ht, hfs⟩ := downloadCookbookFile_success env a url file hok
  obtain ⟨hq, hd, hre, hwf, hnd, hpar, hden⟩ := ht
  have hpf : file ≠ parentDir file := by
    intro h
    rw [← h] at hpar
    exact hnd hpar
  have hfile' : ∃ y, final file = some (Node.file y) := by
    apply (hper file).2 body.data
    rw [hfs file, if_pos rfl]
  have hpar' : final (parentDir file) = some Node.dir := by
    apply (hper (parentDir file)).1
    rw [hfs (parentDir file), if_neg (fun h => hpf h.symm)]
    exact hpar
  have htb : Transfers env b url file request body := by
    refine ⟨hq, ?_, hre, hwf, ?_, ?_, hden⟩
    · rw [hdet _ (a.log (Event.newRequest "GET" url))]; exact hd
    · rcases hsim file with h | h
      · obtain ⟨y, hy⟩ := hfile'
        rw [h, hy]; simp
      · rw [h]; exact hnd
    · rcases hsim (parentDir file) with h | h
      · rw [h]; exact hpar'
      · rw [h]; exact hpar
  obtain ⟨hbok, hbfs⟩ := downloadCookbookFile_of_transfers env b url file request body htb
  refine ⟨hbok, ?_⟩
  intro p
  rw [hbfs p, hfs p]
  by_cases hp : p = file
  · right; rw [if_pos hp, if_pos hp]
  · rw [if_neg hp, if_neg hp]; exact hsim p

theorem follows_mkdirChain (env : Env) (final : String → Option Node) (ds : List String)
    (a b : World) (hok : (mkdirChain env a ds).1 = none)
    (hper : Persists (mkdirChain env a ds).2.fs final) (hsim : Follows final a b) :
    (mkdirChain env b ds).1 = none ∧
      Follows final (mkdirChain env a ds).2 (mkdirChain env b ds).2 := by
  induction ds generalizing a b with
  | nil => exact ⟨rfl, hsim⟩
  | cons d ds ih =>
    have hfinal : final d = some Node.dir :=
      (hper d).1 (mkdirChain_ok env (d :: ds) a hok d (List.mem_cons_self _ _))
    cases hfa : a.fs d with
    | some n =>
      cases n with
      | file c => simp [mkdirChain, hfa] at hok
      | dir =>
        simp only [mkdirChain, hfa] at hok hper ⊢
        have hfb : b.fs d = some Node.dir := by
          rcases hsim d with h | h
          · rw [h]; exact hfinal
          · rw [h]; exact hfa
        simp only [hfb]
        exact ih a b hok hper hsim
    | none =>
      cases hden : env.mkdirDenied d with
      | some err => simp [mkdirChain, hfa, hden] at hok
      | none =>
        simp only [mkdirChain, hfa, hden] at hok hper ⊢
        rcases hsim d with h | h
        · rw [hfinal] at h
          simp only [h]
          apply ih (a.put d Node.dir) b hok hper
          intro p
          by_cases hp : p = d
          · right; rw [put_fs, if_pos hp, hp]; exact h
          · rcases hsim p with h1 | h1
            · exact Or.inl h1
            · right; rw [put_fs, if_neg hp]; exact h1
        · rw [hfa] at h
          simp only [h, hden]
          apply ih (a.put d Node.dir) (b.put d Node.dir) hok hper
          intro p
          by_cases hp : p = d
          · right; rw [put_fs, put_fs, if_pos hp, if_pos hp]
          · rw [put_fs, put_fs, if_neg hp, if_neg hp]; exact hsim p

theorem follows_osMkdirAll (env : Env) (final : String → Option Node) (a b : World)
    (path : String) (perm : Nat) (hok : (osMkdirAll env a path perm).1 = none)
    (hper : Persists (osMkdirAll env a path perm).2.fs final) (hsim : Follows final a b) :
    (osMkdirAll env b path perm).1 = none ∧
      Follows final (osMkdirAll env a path perm).2 (osMkdirAll env b path perm).2 := by
  unfold osMkdirAll at hok hper ⊢
  simp only at hok hper ⊢
  by_cases hp : path = ""
  · rw [if_pos hp] at hok; simp at hok
  · simp only [if_neg hp] at hok hper ⊢
    exact follows_mkdirChain env final (ancestors path) _ _ hok hper
      (fun p => hsim p)

theorem follows_downloadItemsLoop (env : Env)
    (hdet : ∀ w1 w2 request, env.doRequest w1 request = env.doRequest w2 request)
    (final : String → Option Node) (localPath : String) (items : List CookbookItem)
    (a b : World) (hok : (downloadItemsLoop env localPath a items).1 = none)
    (hper : Persists (downloadItemsLoop env localPath a items).2.fs final)
    (hsim : Follows final a b) :
    (downloadItemsLoop env localPath b items).1 = none ∧
      Follows final (downloadItemsLoop env localPath a items).2
        (downloadItemsLoop env localPath b items).2 := by
  induction items generalizing a b with
  | nil => exact ⟨rfl, hsim⟩
  | cons item rest ih =>
    simp only [downloadItemsLoop] at hok hper ⊢
    have hstep := follows_downloadCookbookFile env hdet final a b item.Url
      (Join [localPath, item.Name])
    rcases hra : downloadCookbookFile env a item.Url (Join [localPath, item.Name]) with ⟨ae, aw⟩
    rw [hra] at hok hper hstep
    cases ae with
    | some err => simp at hok
    | none =>
      simp only at hok hper hstep
      have hp1 : Persists aw.fs final :=
        persists_trans (persists_downloadItemsLoop env localPath rest aw) hper
      obtain ⟨hb1, hb2⟩ := hstep trivial hp1 hsim
      rcases hrb : downloadCookbookFile env b item.Url (Join [localPath, item.Name]) with ⟨be, bw⟩
      rw [hrb] at hb1 hb2
      simp only at hb1 hb2
      subst hb1
      exact ih aw bw hok hper hb2

theorem follows_downloadCookbookItems (env : Env)
    (hdet : ∀ w1 w2 request, env.doRequest w1 request = env.doRequest w2 request)
    (final : String → Option Node) (items : List CookbookItem) (itemType localPath : String)
    (a b : World) (hok : (downloadCookbookItems env a items itemType localPath).1 = none)
    (hper : Persists (downloadCookbookItems env a items itemType localPath).2.fs final)
    (hsim : Follows final a b) :
    (downloadCookbookItems env b items itemType localPath).1 = none ∧
      Follows final (downloadCookbookItems env a items itemType localPath).2
        (downloadCookbookItems env b items itemType localPath).2 := by
  unfold downloadCookbookItems at hok hper ⊢
  by_cases hl : items.length = 0
  · simp only [if_pos hl]; exact ⟨trivial, hsim⟩
  · simp only [if_neg hl] at hok hper ⊢
    have hstep := follows_osMkdirAll env final
      (a.log (Event.printed ("Downloading " ++ itemType ++ "\n")))
      (b.log (Event.printed ("Downloading " ++ itemType ++ "\n"))) localPath 0o755
    rcases hra : osMkdirAll env (a.log (Event.printed ("Downloading " ++ itemType ++ "\n")))
      localPath 0o755 with ⟨ae, aw⟩
    rw [hra] at hok hper hstep
    cases ae with
    | some err => simp at hok
    | none =>
      simp only at hok hper hstep
      have hp1 : Persists aw.fs final :=
        persists_trans (persists_downloadItemsLoop env localPath items aw) hper
      obtain ⟨hb1, hb2⟩ := hstep trivial hp1 hsim
      rcases hrb : osMkdirAll env (b.log (Event.printed ("Downloading " ++ itemType ++ "\n")))
        localPath 0o755 with ⟨be, bw⟩
      rw [hrb] at hb1 hb2
      simp only at hb1 hb2
      subst hb1
      exact follows_downloadItemsLoop env hdet final localPath items aw bw hok hper hb2

theorem follows_runCalls (env : Env)
    (hdet : ∀ w1 w2 request, env.doRequest w1 request = env.doRequest w2 request)
    (final : String → Option Node) (calls : List (List CookbookItem × String × String))
    (a b : World) (hok : ∀ e ∈ (runCalls env a calls).1, e = none)
    (hper : Persists (runCalls env a calls).2.fs final) (hsim : Follows final a b) :
    (∀ e ∈ (runCalls env b calls).1, e = none) ∧
      Follows final (runCalls env a calls).2 (runCalls env b calls).2 := by
  induction calls generalizing a b with
  | nil => exact ⟨by simp [runCalls], hsim⟩
  | cons c rest ih =>
    simp only [runCalls, List.mem_cons, forall_eq_or_imp] at hok hper ⊢
    have hp1 : Persists (downloadCookbookItems env a c.1 c.2.1 c.2.2).2.fs final :=
      persists_trans (persists_runCalls env rest _) hper
    obtain ⟨hb1, hb2⟩ := follows_downloadCookbookItems env hdet final c.1 c.2.1 c.2.2 a b
      hok.1 hp1 hsim
    obtain ⟨hb3, hb4⟩ := ih _ _ hok.2 hper hb2
    exact ⟨⟨hb1, hb3⟩, hb4⟩

/-- C7: with a server that answers a request the same way whenever it is made, a download
that succeeded succeeds again when it is run anew in the world it left, accepting the
directories and overwriting the files that exist, and leaves the filesystem as the first
run left it. -/
theorem C7_second_run_same_result (env : Env) (w : World) (name version localDir : String)
    (hdet : ∀ w1 w2 request, env.doRequest w1 request = env.doRequest w2 request)
    (hok : (DownloadCookbookAt env w name version localDir).1 = none) :
    (DownloadCookbookAt env (DownloadCookbookAt env w name version localDir).2
        name version localDir).1 = none ∧
      (DownloadCookbookAt env (DownloadCookbookAt env w name version localDir).2
        name version localDir).2.fs = (DownloadCookbookAt env w name version localDir).2.fs := by
  cases hfetch : env.getVersion name
      (if version = "" ∨ version = "latest" then "_latest" else version) with
  | error err =>
    have := (DownloadCookbookAt_fetch_error env w name version localDir err hfetch)
    rw [this] at hok
    simp at hok
  | ok cookbook =>
    have hres := DownloadCookbookAt_ok env w name version localDir cookbook hfetch
    have hall : ∀ e ∈ (categoryRuns env w name version localDir cookbook).1, e = none := by
      rw [← firstError_none_iff]
      rw [hres] at hok
      cases hf : firstError (categoryRuns env w name version localDir cookbook).1 with
      | none => rfl
      | some err => rw [hf] at hok; simp at hok
    have hfs1 := DownloadCookbookAt_fs env w name version localDir cookbook hfetch
    have hfs2 := DownloadCookbookAt_fs env (DownloadCookbookAt env w name version localDir).2
      name version localDir cookbook hfetch
    have hres2 := DownloadCookbookAt_ok env (DownloadCookbookAt env w name version localDir).2
      name version localDir cookbook hfetch
    have hsim : Follows (categoryRuns env w name version localDir cookbook).2.fs
        (startWorld w name version cookbook)
        (startWorld (DownloadCookbookAt env w name version localDir).2 name version cookbook) := by
      intro p
      left
      show (DownloadCookbookAt env w name version localDir).2.fs p = _
      rw [hfs1]
    obtain ⟨h1, h2⟩ := follows_runCalls env hdet
      (categoryRuns env w name version localDir cookbook).2.fs
      (categoryCalls cookbook (Join [localDir, cookbook.Name]))
      (startWorld w name version cookbook)
      (startWorld (DownloadCookbookAt env w name version localDir).2 name version cookbook)
      hall (persists_refl _) hsim
    constructor
    · rw [hres2]
      have hf : firstError (categoryRuns env (DownloadCookbookAt env w name version localDir).2
          name version localDir cookbook).1 = none := (firstError_none_iff _).2 h1
      rw [hf]
    · rw [hfs2, hfs1]
      funext p
      rcases h2 p with h | h
      · exact h
      · exact h

/-! ### Witnesses and counterexamples on the example data -/

/-- C1, witness: the three versions of the repository's test
`TestDownloadCookbookCorrectsLatestVersion`, and two near misses of `latest`. -/
theorem C1_version_token_witness :
    askedVersions (DownloadCookbookAt fooEnv tmpDisk "foo" "" "/tmp").2.trace =
        [("foo", "_latest")] ∧
      askedVersions (DownloadCookbookAt fooEnv tmpDisk "foo" "latest" "/tmp").2.trace =
        [("foo", "_latest")] ∧
      askedVersions (DownloadCookbookAt fooEnv tmpDisk "foo" "_latest" "/tmp").2.trace =
        [("foo", "_latest")] ∧
      askedVersions (DownloadCookbookAt fooEnv tmpDisk "foo" "Latest" "/tmp").2.trace =
        [("foo", "Latest")] ∧
      askedVersions (DownloadCookbookAt fooEnv tmpDisk "foo" " latest " "/tmp").2.trace =
        [("foo", " latest ")] :=
  ⟨C1_version_token fooEnv tmpDisk "foo" "" "/tmp",
    C1_version_token fooEnv tmpDisk "foo" "latest" "/tmp",
    C1_version_token fooEnv tmpDisk "foo" "_latest" "/tmp",
    C1_version_token fooEnv tmpDisk "foo" "Latest" "/tmp",
    C1_version_token fooEnv tmpDisk "foo" " latest " "/tmp"⟩

/-- C2, witness: the repository's test `TestDownloadCookbookThatDoesNotExist`. -/
theorem C2_manifest_failure_witness :
    fooEnv.getVersion "foo" "2.1.0" = Except.error "404" ∧
      (DownloadCookbookAt fooEnv tmpDisk "foo" "2.1.0" "/tmp").1 = some "404" ∧
      (DownloadCookbookAt fooEnv tmpDisk "foo" "2.1.0" "/tmp").2.fs = tmpDisk.fs :=
  ⟨rfl, (C2_manifest_failure fooEnv tmpDisk "foo" "2.1.0" "/tmp" "404" rfl).1,
    (C2_manifest_failure fooEnv tmpDisk "foo" "2.1.0" "/tmp" "404" rfl).2.1⟩

/-- C4, witness: the repository's test `TestDownloadCookbookEmptyWithVersion`. -/
theorem C4_empty_category_is_inert_witness :
    (DownloadCookbookAt emptyCookbookEnv tmpDisk "foo" "0.2.0" "/tmp").1 = none ∧
      (DownloadCookbookAt emptyCookbookEnv tmpDisk "foo" "0.2.0" "/tmp").2.fs = tmpDisk.fs :=
  ⟨((C4_empty_category_is_inert emptyCookbookEnv tmpDisk "foo" "0.2.0" "/tmp").2
      emptyCookbook rfl).2.2 (by decide) |>.1,
    ((C4_empty_category_is_inert emptyCookbookEnv tmpDisk "foo" "0.2.0" "/tmp").2
      emptyCookbook rfl).2.2 (by decide) |>.2.1⟩

/-- C6 as stated fails: the only root file cannot be fetched, so the first category fails,
and still the later category `recipes` is downloaded: its directory is created and its
file is requested and written, before the first error is returned. -/
theorem C6_counterexample :
    (downloadCookbookItems rootFailEnv (startWorld tmpDisk "foo" "0.2.1" fooCookbook)
        fooCookbook.RootFiles "root_files" (Join ["/tmp", fooCookbook.Name])).1 = some "404" ∧
      (DownloadCookbookAt rootFailEnv tmpDisk "foo" "0.2.1" "/tmp").1 = some "404" ∧
      tmpDisk.fs "/tmp/foo-0.2.1/recipes" = none ∧
      (DownloadCookbookAt rootFailEnv tmpDisk "foo" "0.2.1" "/tmp").2.fs
        "/tmp/foo-0.2.1/recipes" = some Node.dir ∧
      "/bookshelf/foo/default_rb" ∈
        requestedUrls (DownloadCookbookAt rootFailEnv tmpDisk "foo" "0.2.1" "/tmp").2.trace ∧
      (DownloadCookbookAt rootFailEnv tmpDisk "foo" "0.2.1" "/tmp").2.fs
        "/tmp/foo-0.2.1/recipes/default.rb" = some (Node.file "log 'this is a resource'") := by
  refine ⟨?_, ?_, ?_, ?_, ?_, ?_⟩ <;> decide

/-- C6 (amended), witness: after the failure of `root_files`, `recipes` is attempted. -/
theorem C6_every_category_attempted_witness :
    (DownloadCookbookAt rootFailEnv tmpDisk "foo" "0.2.1" "/tmp").1 = some "404" ∧
      ∃ added, (DownloadCookbookAt rootFailEnv tmpDisk "foo" "0.2.1" "/tmp").2.trace =
          added ++ tmpDisk.trace ∧
        mkdirTargets added =
          attempted (categoryCalls fooCookbook (Join ["/tmp", fooCookbook.Name])) ∧
        Join [Join ["/tmp", fooCookbook.Name], "recipes"] ∈ mkdirTargets added :=
  ⟨by decide,
    C6_every_category_attempted rootFailEnv tmpDisk "foo" "0.2.1" "/tmp" fooCookbook rfl
      (fooCookbook.Recipes, "recipes", Join [Join ["/tmp", fooCookbook.Name], "recipes"])
      (by decide) (by decide)⟩

/-- C7, witness: the download of the repository's test, run twice. -/
theorem C7_second_run_same_result_witness :
    (DownloadCookbookAt fooEnv tmpDisk "foo" "0.2.1" "/tmp").1 = none ∧
      (DownloadCookbookAt fooEnv (DownloadCookbookAt fooEnv tmpDisk "foo" "0.2.1" "/tmp").2
        "foo" "0.2.1" "/tmp").1 = none ∧
      (DownloadCookbookAt fooEnv (DownloadCookbookAt fooEnv tmpDisk "foo" "0.2.1" "/tmp").2
        "foo" "0.2.1" "/tmp").2.fs =
        (DownloadCookbookAt fooEnv tmpDisk "foo" "0.2.1" "/tmp").2.fs :=
  ⟨by decide,
    C7_second_run_same_result fooEnv tmpDisk "foo" "0.2.1" "/tmp" (fun _ _ _ => rfl)
      (by decide)⟩

/-- C8, witness: a response with an error status is closed before the error is
returned. -/
theorem C8_response_body_closed_witness :
    ∃ mid, (downloadCookbookFile rootFailEnv tmpDisk "/bookshelf/foo/metadata_rb"
        "/tmp/metadata.rb").2.trace =
        Event.closeBody "/bookshelf/foo/metadata_rb" :: mid ++
          Event.doRequest "/bookshelf/foo/metadata_rb" ::
            Event.newRequest "GET" "/bookshelf/foo/metadata_rb" :: tmpDisk.trace ∧
      ∀ e ∈ mid, e = Event.create "/tmp/metadata.rb" ∨
        e = Event.copy "/tmp/metadata.rb" "Not Found" :=
  (C8_response_body_closed rootFailEnv tmpDisk "/bookshelf/foo/metadata_rb"
    "/tmp/metadata.rb").2 { method := "GET", url := "/bookshelf/foo/metadata_rb" }
    { data := "Not Found", readErr := none } rfl (Or.inr ⟨"404", rfl⟩)

/-- C9, witness: `root_files` fails with 404 and the error of the download is 404. -/
theorem C9_earliest_category_error_witness :
    rootFailEnv.getVersion "foo" "0.2.1" = Except.ok fooCookbook ∧
      (DownloadCookbookAt rootFailEnv tmpDisk "foo" "0.2.1" "/tmp").1 = some "404" :=
  ⟨rfl,
    ((C9_earliest_category_error rootFailEnv tmpDisk "foo" "0.2.1" "/tmp" fooCookbook
      rfl).2.2 "404").2 ⟨0, by decide, fun j hj => absurd hj (Nat.not_lt_zero j)⟩⟩

end Chef
